import Mathlib

set_option maxHeartbeats 1600000

namespace Velox

/-! # Shallow embedding of the velox-orchestrator control plane

Definitions are translated from the repository sources
(`src/core/models.py`, `src/core/registry.py`, `src/core/registry_sql.py`,
`src/webhook/handler.py`, `src/discovery/docker_provider.py`,
`src/deployment/engine.py`, `src/acme/client.py`).
Python dicts are modelled as association lists (`List (String × α)`), the
relational store and the hot cache as explicit state records, and effectful
steps that may raise as `Except` values or as explicit failure-point oracles. -/

/-- Association-list lookup; the first binding wins (a map read). -/
def alookup {α : Type} : List (String × α) → String → Option α
  | [], _ => none
  | (k2, v) :: rest, k => if k2 = k then some v else alookup rest k

/-- Association-list write: overwrites the binding of the key, appends when absent
(a map write, as for a Python dict or a Redis hash/key). -/
def aset {α : Type} : List (String × α) → String → α → List (String × α)
  | [], k, v => [(k, v)]
  | p :: rest, k, v => if p.1 = k then (k, v) :: rest else p :: aset rest k v

/-- Association-list delete (a map delete). -/
def aerase {α : Type} (l : List (String × α)) (k : String) : List (String × α) :=
  l.filter (fun p => p.1 ≠ k)

theorem alookup_aset_self {α : Type} (l : List (String × α)) (k : String) (v : α) :
    alookup (aset l k v) k = some v := by
  induction l with
  | nil => simp [aset, alookup]
  | cons p rest ih =>
    by_cases hp : p.1 = k
    · simp [aset, hp, alookup]
    · simp [aset, hp, alookup, ih]

theorem alookup_aset_ne {α : Type} (l : List (String × α)) (k k2 : String) (v : α)
    (h : k ≠ k2) : alookup (aset l k v) k2 = alookup l k2 := by
  induction l with
  | nil => simp [aset, alookup, h]
  | cons p rest ih =>
    by_cases hp : p.1 = k
    · simp [aset, hp, alookup, h, ih]
    · by_cases hp2 : p.1 = k2
      · simp [aset, hp, alookup, hp2, Ne.symm h]
      · simp [aset, hp, alookup, hp2, ih]

theorem aerase_cons_self {α : Type} (p : String × α) (rest : List (String × α)) (k : String)
    (hp : p.1 = k) : aerase (p :: rest) k = aerase rest k := by
  simp [aerase, List.filter_cons, hp]

theorem aerase_cons_ne {α : Type} (p : String × α) (rest : List (String × α)) (k : String)
    (hp : p.1 ≠ k) : aerase (p :: rest) k = p :: aerase rest k := by
  simp [aerase, List.filter_cons, hp]

theorem alookup_aerase_self {α : Type} (l : List (String × α)) (k : String) :
    alookup (aerase l k) k = none := by
  induction l with
  | nil => rfl
  | cons p rest ih =>
    by_cases hp : p.1 = k
    · rw [aerase_cons_self p rest k hp]
      exact ih
    · rw [aerase_cons_ne p rest k hp]
      simp [alookup, hp, ih]

theorem alookup_aerase_ne {α : Type} (l : List (String × α)) (k k2 : String) (h : k ≠ k2) :
    alookup (aerase l k) k2 = alookup l k2 := by
  induction l with
  | nil => rfl
  | cons p rest ih =>
    by_cases hp : p.1 = k
    · have hp2 : p.1 ≠ k2 := by rw [hp]; exact h
      rw [aerase_cons_self p rest k hp, ih]
      simp [alookup, hp2]
    · rw [aerase_cons_ne p rest k hp]
      by_cases hp2 : p.1 = k2
      · simp [alookup, hp2]
      · simp [alookup, hp2, ih]

/-! ## Data model (src/core/models.py) -/

inductive Protocol
  | http | https | tcp | udp
deriving DecidableEq, Repr

inductive LoadBalancer
  | round_robin | least_conn | ip_hash | random
deriving DecidableEq, Repr

inductive HealthCheckType
  | http | tcp | none
deriving DecidableEq, Repr

structure HealthCheckSpec where
  type : HealthCheckType := .http
  path : String := "/"
  interval : Nat := 10
  timeout : Nat := 5
  healthy_threshold : Nat := 2
  unhealthy_threshold : Nat := 3
deriving DecidableEq, Repr

structure Upstream where
  address : String
  port : Int
  weight : Nat := 1
  healthy : Bool := true
  container_id : Option String := none
deriving DecidableEq, Repr

structure Route where
  id : String
  host : String
  path : String := "/"
  protocol : Protocol := .http
  upstreams : List Upstream := []
  middlewares : List String := []
  load_balancer : LoadBalancer := .round_robin
  health_check : Option HealthCheckSpec := none
  strip_path : Bool := false
  preserve_host : Bool := true
  enabled : Bool := true
deriving DecidableEq, Repr

inductive DeploySource
  | git | image | compose
deriving DecidableEq, Repr

inductive DeployStatus
  | pending | building | deploying | running | stopped | failed
deriving DecidableEq, Repr

structure Application where
  id : String
  project_id : String
  name : String
  source : DeploySource
  source_url : String := ""
  source_branch : String := "main"
  dockerfile : String := "Dockerfile"
  build_context : String := "."
  image : String := ""
  compose_file : String := ""
  domain : String := ""
  port : Int := 80
  env : List (String × String) := []
  volumes : List String := []
  networks : List String := []
  replicas : Nat := 1
  depends_on : List String := []
  healthcheck : Option (List (String × String)) := none
  status : DeployStatus := .pending
  container_ids : List String := []
  created_at : Nat := 0
  updated_at : Nat := 0
deriving DecidableEq, Repr

structure Deployment where
  id : String
  app_id : String
  version : Nat
  status : DeployStatus
  image : String := ""
  container_ids : List String := []
  logs : String := ""
  started_at : Nat := 0
  finished_at : Nat := 0
deriving DecidableEq, Repr

inductive GitProvider
  | github | gitlab | gitea | bitbucket
deriving DecidableEq, Repr

structure GitRepo where
  id : String
  provider : GitProvider
  url : String
  branch : String := "main"
  config_file : String := "deploy.yaml"
  webhook_secret : String := ""
  project_id : Option String := none
  last_commit : String := ""
  last_deploy_at : Nat := 0
  enabled : Bool := true
  created_at : Nat := 0
deriving DecidableEq, Repr

/-! ## Event bus (src/core/registry.py, class EventBus)

A handler is modelled as a state transformer that performs its effects and may
additionally raise: `run s = (s2, some e)` means the handler ran (mutating the
shared state to `s2` up to the point of the raise) and raised `e`;
`run s = (s2, none)` means it completed normally.  `emit` wraps every handler
call in try/except: a raised error is logged and swallowed. -/

structure Handler (σ ε : Type) where
  run : σ → σ × Option ε

/-- One iteration of the `for handler in self._handlers[event]` loop:
the `try`/`except` around the handler call.  A raised error is caught
(and logged), so both branches continue with the handler's final state. -/
def emitStep {σ ε : Type} (s : σ) (h : Handler σ ε) : σ :=
  match h.run s with
  | (s2, some _) => s2
  | (s2, none) => s2

/-- Invoke a list of handlers in order (the loop body of `EventBus.emit`). -/
def emitList {σ ε : Type} (hs : List (Handler σ ε)) (s : σ) : σ :=
  hs.foldl emitStep s

/-- The handlers registered for one event name, in registration order
(`self._handlers` is a dict of lists appended to by `on`). -/
def busHandlersFor {σ ε : Type} (bus : List (String × Handler σ ε)) (ev : String) :
    List (Handler σ ε) :=
  (bus.filter (fun p => p.1 == ev)).map Prod.snd

/-- `EventBus.on`: register a handler for an event name (appends). -/
def busOn {σ ε : Type} (bus : List (String × Handler σ ε)) (ev : String) (h : Handler σ ε) :
    List (String × Handler σ ε) :=
  bus ++ [(ev, h)]

/-- `EventBus.emit`: if the event has no handlers, return; otherwise invoke each
registered handler in order, catching exceptions. -/
def emit {σ ε : Type} (bus : List (String × Handler σ ε)) (ev : String) (s : σ) : σ :=
  emitList (busHandlersFor bus ev) s

theorem emitStep_eq_fst {σ ε : Type} (s : σ) (h : Handler σ ε) :
    emitStep s h = (h.run s).1 := by
  unfold emitStep
  rcases hr : h.run s with ⟨s2, o⟩
  cases o <;> simp

theorem emitList_append {σ ε : Type} (hs1 hs2 : List (Handler σ ε)) (s : σ) :
    emitList (hs1 ++ hs2) s = emitList hs2 (emitList hs1 s) := by
  unfold emitList
  exact List.foldl_append _ _ _ _

/-! ## Webhook handler (src/webhook/handler.py) -/

/-- `WebhookHandler.verify_github_signature`, parameterised by the HMAC-SHA256
hex-digest primitive (`hmacSha256Hex secret payload`).  Mirrors:
`if not signature or not secret: return not secret` then
`hmac.compare_digest("sha256=" + hexdigest, signature)`. -/
def verifyGithubSignature (hmacSha256Hex : String → String → String)
    (payload : String) (signature : String) (secret : String) : Bool :=
  if signature = "" ∨ secret = "" then
    decide (secret = "")
  else
    ("sha256=" ++ hmacSha256Hex secret payload) == signature

/-- Registry-side state seen by the webhook handler: the git-repo table, the
event-bus delivery log (event name, repo id, commit), and the current clock
used for `last_deploy_at`. -/
structure WebhookState where
  repos : List (String × GitRepo)
  events : List (String × String × String)
  now : Nat
deriving DecidableEq, Repr

/-- `Registry.update_git_repo_commit`: fetch the repo; when present, rewrite it
with `last_commit := commit` and `last_deploy_at := now`. -/
def updateGitRepoCommit (st : WebhookState) (repoId commit : String) : WebhookState :=
  match alookup st.repos repoId with
  | none => st
  | some r =>
    { st with
      repos := aset st.repos repoId { r with last_commit := commit, last_deploy_at := st.now } }

inductive TriggerResult
  | ignored (reason : String)
  | accepted (repoId commit : String)
deriving DecidableEq, Repr

/-- `WebhookHandler._trigger_deploy`: debounce by commit, otherwise update the
stored commit and emit `webhook_received` (modelled as appending to the
delivery log). -/
def triggerDeploy (st : WebhookState) (repo : GitRepo) (commit : String) :
    WebhookState × TriggerResult :=
  if repo.last_commit = commit then
    (st, .ignored "same commit")
  else
    let st1 := updateGitRepoCommit st repo.id commit
    let st2 := { st1 with events := st1.events ++ [("webhook_received", repo.id, commit)] }
    (st2, .accepted repo.id commit)

/-! ## Registry (src/core/registry_sql.py and src/core/registry.py)

`RegistrySQL` (the registry wired up in `src/main.py`) keeps the durable rows
in the relational store and mirrors routing data into the Redis hot cache;
`Registry` is the older Redis-only implementation.  Both are embedded where a
claim cites them. -/

/-- Redis SADD on a modelled set (sets are modelled as duplicate-free lists). -/
def sadd (s : List String) (x : String) : List String :=
  if x ∈ s then s else s ++ [x]

/-- Redis SREM on a modelled set. -/
def srem (s : List String) (x : String) : List String :=
  s.filter (fun y => y ≠ x)

/-- The Redis hot cache: `routes:{id}`, `routes:index:host:{host}`,
`routes:index:enabled`, `upstreams:{route_id}`, and the `config:version`
counter. -/
structure RedisCache where
  routes : List (String × Route)
  hostIndex : List (String × List String)
  enabledIndex : List String
  upstreams : List (String × List String)
  configVersion : Nat
deriving DecidableEq, Repr

/-- SADD into a per-host index key. -/
def hostIndexAdd (idx : List (String × List String)) (host rid : String) :
    List (String × List String) :=
  match alookup idx host with
  | none => aset idx host (sadd [] rid)
  | some s => aset idx host (sadd s rid)

/-- SREM from a per-host index key (a no-op when the key is absent). -/
def hostIndexRem (idx : List (String × List String)) (host rid : String) :
    List (String × List String) :=
  match alookup idx host with
  | none => idx
  | some s => aset idx host (srem s rid)

/-- The `address:port:weight` entry pushed per upstream into `upstreams:{id}`. -/
def upstreamEntry (u : Upstream) : String :=
  u.address ++ ":" ++ toString u.port ++ ":" ++ toString u.weight

/-- The cache mirroring pipeline shared by both `set_route` implementations:
set the route key, SADD into the host index, SADD/SREM the enabled index,
rewrite the upstream list, INCR `config:version`. -/
def cacheSetRoute (c : RedisCache) (r : Route) : RedisCache :=
  { routes := aset c.routes r.id r
    hostIndex := hostIndexAdd c.hostIndex r.host r.id
    enabledIndex := if r.enabled then sadd c.enabledIndex r.id else srem c.enabledIndex r.id
    upstreams := aset c.upstreams r.id (r.upstreams.map upstreamEntry)
    configVersion := c.configVersion + 1 }

/-- Durable relational tables touched by the claims. -/
structure SqlDb where
  routesTable : List (String × Route)
  deploymentsTable : List Deployment
deriving DecidableEq, Repr

/-- `RegistrySQL.set_route`: upsert the durable row inside a transaction, then
mirror to the hot cache. -/
def sqlSetRoute (db : SqlDb) (c : RedisCache) (r : Route) : SqlDb × RedisCache :=
  ({ db with routesTable := aset db.routesTable r.id r }, cacheSetRoute c r)

/-- `RegistrySQL.get_route`: authoritative read from the durable store. -/
def sqlGetRoute (db : SqlDb) (rid : String) : Option Route :=
  alookup db.routesTable rid

/-- `RegistrySQL.delete_route`: delete the durable row; when a row was deleted,
remove only `routes:{id}` and `upstreams:{id}` from the cache and bump
`config:version`.  The per-host index and the enabled index are left
untouched (the route object was already deleted, so the host is unknown). -/
def sqlDeleteRoute (db : SqlDb) (c : RedisCache) (rid : String) :
    SqlDb × RedisCache × Bool :=
  let existed := (alookup db.routesTable rid).isSome
  let db2 := { db with routesTable := aerase db.routesTable rid }
  if existed then
    (db2,
     { c with
        routes := aerase c.routes rid
        upstreams := aerase c.upstreams rid
        configVersion := c.configVersion + 1 },
     true)
  else
    (db2, c, false)

/-- `Registry.delete_route` (the Redis-only registry): fetch the route first;
delete the route and upstream keys, SREM the id from the per-host set and the
enabled set, and INCR `config:version`. -/
def redisDeleteRoute (c : RedisCache) (rid : String) : RedisCache × Bool :=
  match alookup c.routes rid with
  | none => (c, false)
  | some r =>
    ({ c with
        routes := aerase c.routes rid
        upstreams := aerase c.upstreams rid
        hostIndex := hostIndexRem c.hostIndex r.host rid
        enabledIndex := srem c.enabledIndex rid
        configVersion := c.configVersion + 1 },
     true)

/-! ## Deployment versions (src/core/registry_sql.py, src/deployment/engine.py) -/

/-- SQL `ORDER BY version DESC LIMIT 1` over a bag of rows: the greatest
version, `none` on an empty bag. -/
def maxVersion : List Deployment → Option Nat
  | [] => none
  | d :: rest =>
    match maxVersion rest with
    | none => some d.version
    | some m => some (max d.version m)

/-- `RegistrySQL.get_next_deployment_version`: highest existing version plus
one, or `1` when the app has no deployments. -/
def getNextDeploymentVersion (table : List Deployment) (appId : String) : Nat :=
  match maxVersion (table.filter (fun d => d.app_id == appId)) with
  | some v => v + 1
  | none => 1

/-- `RegistrySQL.set_deployment`: upsert by deployment id. -/
def setDeployment (table : List Deployment) (d : Deployment) : List Deployment :=
  if table.any (fun d0 => d0.id == d.id) then
    table.map (fun d0 => if d0.id == d.id then d else d0)
  else
    table ++ [d]

/-- `DeploymentEngine.deploy`, the version-allocation prefix: allocate
`version = get_next_deployment_version(app.id)` and persist the pending
Deployment `{app.id}-v{version}`. -/
def engineDeployRecord (table : List Deployment) (app : Application) :
    List Deployment × Deployment :=
  let v := getNextDeploymentVersion table app.id
  let dep : Deployment :=
    { id := app.id ++ "-v" ++ toString v, app_id := app.id, version := v, status := .pending }
  (setDeployment table dep, dep)

/-- The multiset of versions recorded for one app. -/
def versionsOf (table : List Deployment) (appId : String) : List Nat :=
  (table.filter (fun d => d.app_id == appId)).map (fun d => d.version)

/-- The version set of an app forms the prefix `{1, …, n}` of the positive
integers. -/
def VersionsPrefix (table : List Deployment) (appId : String) (n : Nat) : Prop :=
  ∀ v, v ∈ versionsOf table appId ↔ (1 ≤ v ∧ v ≤ n)

/-! ## Docker provider label parsing (src/discovery/docker_provider.py) -/

/-- The characters stripped by Python `str.strip()` (common ASCII whitespace). -/
def isPyWs (c : Char) : Bool :=
  c == ' ' || c == '\t' || c == '\n' || c == '\r' || c == Char.ofNat 11 || c == Char.ofNat 12

/-- Python `s.strip(c)` for a single character: drop leading and trailing runs. -/
def pyStripChar (c : Char) (s : String) : String :=
  String.mk (((s.toList.dropWhile (· == c)).reverse.dropWhile (· == c)).reverse)

/-- Python `s.strip()`. -/
def pyStripWs (s : String) : String :=
  String.mk (((s.toList.dropWhile isPyWs).reverse.dropWhile isPyWs).reverse)

/-- The backtick character stripped from `host` labels. -/
def backtick : Char := Char.ofNat 96

/-- Digit-string value: `some n` when the list is a non-empty run of ASCII
digits. -/
def digitsToNat (cs : List Char) : Option Nat :=
  if cs ≠ [] ∧ cs.all Char.isDigit then
    some (cs.foldl (fun a c => a * 10 + (c.toNat - 48)) 0)
  else
    none

/-- Python `int(s)` (base 10): optional surrounding whitespace, optional sign,
then digits; anything else raises `ValueError`.  (Digit-group underscores are
not modelled.) -/
def pyInt (s : String) : Except String Int :=
  let t := ((s.toList.dropWhile isPyWs).reverse.dropWhile isPyWs).reverse
  match t with
  | '-' :: rest =>
    match digitsToNat rest with
    | some n => .ok (-(n : Int))
    | none => .error "invalid literal for int() with base 10"
  | '+' :: rest =>
    match digitsToNat rest with
    | some n => .ok (n : Int)
    | none => .error "invalid literal for int() with base 10"
  | cs =>
    match digitsToNat cs with
    | some n => .ok (n : Int)
    | none => .error "invalid literal for int() with base 10"

/-- Python `rest.split(".", 1)` when it yields two parts: the text before the
first dot and everything after it; `none` when there is no dot. -/
def splitOnceDot : List Char → Option (List Char × List Char)
  | [] => none
  | c :: rest =>
    if c = '.' then some ([], rest)
    else
      match splitOnceDot rest with
      | none => none
      | some (a, b) => some (c :: a, b)

/-- The router-label prefix `{label_prefix}http.routers.`. -/
def routersPrefix (labelPrefix : String) : String :=
  labelPrefix ++ "http.routers."

/-- Python `key.startswith(prefix)` (first argument: the prefix chars). -/
def charListPfx : List Char → List Char → Bool
  | [], _ => true
  | _ :: _, [] => false
  | a :: as, b :: bs => a == b && charListPfx as bs

/-- `s.startswith(pfx)` on the embedded strings. -/
def pyStartsWith (s pfx : String) : Bool :=
  charListPfx pfx.toList s.toList

/-- `s[n:]` — drop the first `n` characters. -/
def pyDrop (s : String) (n : Nat) : String :=
  String.mk (s.toList.drop n)

/-- Python `str.lower()` (ASCII case folding). -/
def pyLower (s : String) : String :=
  String.mk (s.toList.map Char.toLower)

/-- Python `s.split(",")`: split on every comma, keeping empty pieces. -/
def splitCommaAux : List Char → List Char → List String
  | acc, [] => [String.mk acc.reverse]
  | acc, c :: rest =>
    if c = ',' then String.mk acc.reverse :: splitCommaAux [] rest
    else splitCommaAux (c :: acc) rest

/-- Python `s.split(",")`. -/
def pySplitComma (s : String) : List String :=
  splitCommaAux [] s.toList

/-- `routers[router_name][prop] = value` on the nested dict of router groups. -/
def groupSet (routers : List (String × List (String × String))) (name prop v : String) :
    List (String × List (String × String)) :=
  match alookup routers name with
  | none => aset routers name [(prop, v)]
  | some props => aset routers name (aset props prop v)

/-- The first loop of `DockerProvider._parse_labels`: group the labels of the
form `{prefix}http.routers.<router>.<prop>` by router name (labels without a
dot after the router name are skipped, later duplicates overwrite). -/
def buildRouters (labelPrefix : String) (labels : List (String × String)) :
    List (String × List (String × String)) :=
  labels.foldl
    (fun routers kv =>
      if pyStartsWith kv.1 (routersPrefix labelPrefix) then
        match splitOnceDot (pyDrop kv.1 (routersPrefix labelPrefix).length).toList with
        | none => routers
        | some (nameCs, propCs) => groupSet routers (String.mk nameCs) (String.mk propCs) kv.2
      else routers)
    []

/-- `props.get("host", "").strip("`").strip()` (with the backtick written via
its code point). -/
def hostOf (props : List (String × String)) : String :=
  pyStripWs (pyStripChar backtick ((alookup props "host").getD ""))

/-- `int(props.get("port", 80))`: 80 when absent, otherwise Python `int`,
which raises on a non-numeric string. -/
def portOf (props : List (String × String)) : Except String Int :=
  match alookup props "port" with
  | none => .ok 80
  | some s => pyInt s

/-- `[m.strip() for m in props["middlewares"].split(",") if m.strip()]`,
guarded by the truthiness of `props.get("middlewares")`. -/
def middlewaresOf (props : List (String × String)) : List String :=
  match alookup props "middlewares" with
  | none => []
  | some s =>
    if s = "" then []
    else ((pySplitComma s).map pyStripWs).filter (fun m => m ≠ "")

/-- The Route constructed for one router group once the host check passed and
the port parsed. -/
def builtRoute (containerId ipAddress name : String) (props : List (String × String))
    (port : Int) : Route :=
  { id := containerId ++ "-" ++ name
    host := hostOf props
    path := (alookup props "path").getD "/"
    protocol := if pyLower ((alookup props "tls").getD "") == "true" then .https else .http
    upstreams := [{ address := ipAddress, port := port, container_id := some containerId }]
    middlewares := middlewaresOf props
    strip_path := pyLower ((alookup props "strip_path").getD "") == "true"
    preserve_host := pyLower ((alookup props "preserve_host").getD "true") != "false" }

/-- The body of the second loop of `_parse_labels` for one router group:
`none` when the stripped host is empty (group skipped), an error when the
`port` prop does not parse as an integer (Python `int()` raises), otherwise
the constructed Route. -/
def mkGroupRoute (containerId ipAddress : String) (name : String)
    (props : List (String × String)) : Except String (Option Route) :=
  if hostOf props = "" then .ok none
  else
    match portOf props with
    | .error e => .error e
    | .ok port => .ok (some (builtRoute containerId ipAddress name props port))

/-- The second loop of `_parse_labels`: one Route per group with a host; a
raise from `int(port)` aborts the whole parse. -/
def routesOfGroups (containerId ipAddress : String) :
    List (String × List (String × String)) → Except String (List Route)
  | [] => .ok []
  | (name, props) :: rest =>
    match mkGroupRoute containerId ipAddress name props with
    | .error e => .error e
    | .ok none => routesOfGroups containerId ipAddress rest
    | .ok (some r) =>
      match routesOfGroups containerId ipAddress rest with
      | .error e => .error e
      | .ok rs => .ok (r :: rs)

/-- The upstream IP selection of `_parse_labels`: the proxy-network IP when it
is present and non-empty (`if not ip_address`), otherwise the first attached
network's IP. -/
def ipChoice (proxyNetwork : String) (ipAddresses : List (String × String)) : String :=
  let firstVal := match ipAddresses with | [] => "" | p :: _ => p.2
  match alookup ipAddresses proxyNetwork with
  | some s => if s = "" then firstVal else s
  | none => firstVal

/-- `DockerProvider._parse_labels`: empty IP map yields no routes; otherwise
group the labels and build one route per group with a non-empty host. -/
def parseLabels (labelPrefix proxyNetwork : String) (labels : List (String × String))
    (containerId : String) (ipAddresses : List (String × String)) :
    Except String (List Route) :=
  if ipAddresses = [] then .ok []
  else
    routesOfGroups containerId (ipChoice proxyNetwork ipAddresses)
      (buildRouters labelPrefix labels)

/-! ## ACME client (src/acme/client.py) -/

/-- The urlsafe base64 alphabet. -/
def b64Alphabet : List Char :=
  "ABCDEFGHIJKLMNOPQRSTUVWXYZabcdefghijklmnopqrstuvwxyz0123456789-_".toList

/-- Index into the urlsafe base64 alphabet. -/
def b64Char (n : Nat) : Char :=
  b64Alphabet.getD n 'A'

/-- `base64.urlsafe_b64encode` chunk by chunk, bytes taken mod 256, with
trailing `=` padding. -/
def b64EncodeChunks : List Nat → List Char
  | [] => []
  | [b1] =>
    let x1 := b1 % 256
    [b64Char (x1 / 4), b64Char (x1 % 4 * 16), '=', '=']
  | [b1, b2] =>
    let x1 := b1 % 256
    let x2 := b2 % 256
    [b64Char (x1 / 4), b64Char (x1 % 4 * 16 + x2 / 16), b64Char (x2 % 16 * 4), '=']
  | b1 :: b2 :: b3 :: rest =>
    let x1 := b1 % 256
    let x2 := b2 % 256
    let x3 := b3 % 256
    b64Char (x1 / 4) :: b64Char (x1 % 4 * 16 + x2 / 16) ::
      b64Char (x2 % 16 * 4 + x3 / 64) :: b64Char (x3 % 64) :: b64EncodeChunks rest

/-- `b64url` from the source: urlsafe base64 with the trailing `=` padding
stripped (`.rstrip(b"=")`). -/
def b64url (bs : List Nat) : String :=
  String.mk (((b64EncodeChunks bs).reverse.dropWhile (· == '=')).reverse)

/-- Minimal JSON string escaping (quote and backslash); the JWK fields are
base64url text, which needs no further escaping. -/
def jsonEscapeChar (c : Char) : List Char :=
  if c = '"' then ['\\', '"'] else if c = '\\' then ['\\', '\\'] else [c]

/-- A JSON string literal. -/
def jsonStr (s : String) : String :=
  "\"" ++ String.mk (s.toList.map jsonEscapeChar).flatten ++ "\""

/-- Lexicographic comparison of char lists (Python compares strings by code
point). -/
def charListLe : List Char → List Char → Bool
  | [], _ => true
  | _ :: _, [] => false
  | a :: as, b :: bs => if a < b then true else if a = b then charListLe as bs else false

/-- Lexicographic `a ≤ b` on strings. -/
def strLe (a b : String) : Bool := charListLe a.toList b.toList

/-- Insertion into a key-sorted association list. -/
def insertSorted (p : String × String) : List (String × String) → List (String × String)
  | [] => [p]
  | q :: rest => if strLe p.1 q.1 then p :: q :: rest else q :: insertSorted p rest

/-- Sort an association list by key. -/
def sortByKey (l : List (String × String)) : List (String × String) :=
  l.foldr insertSorted []

/-- `",".join` of the rendered members. -/
def joinComma : List String → String
  | [] => ""
  | [x] => x
  | x :: rest => x ++ "," ++ joinComma rest

/-- `json.dumps(obj, sort_keys=True, separators=(",", ":"))` on a flat
string-to-string object: keys in lexicographic order, no whitespace. -/
def pyJsonDumpsSorted (l : List (String × String)) : String :=
  "\x7b" ++ joinComma ((sortByKey l).map (fun p => jsonStr p.1 ++ ":" ++ jsonStr p.2)) ++ "\x7d"

/-- `ACMEClient._jwk`: the account JWK dict in insertion order `kty, n, e`,
where `n` and `e` are the base64url-encoded public numbers. -/
def acmeJwk (n e : String) : List (String × String) :=
  [("kty", "RSA"), ("n", n), ("e", e)]

/-- `ACMEClient._thumbprint`: base64url (no padding) of the SHA-256 of the
sorted compact JSON of the JWK; the SHA-256 primitive is a parameter mapping
the serialized JWK to its digest bytes. -/
def acmeThumbprint (sha256 : String → List Nat) (n e : String) : String :=
  b64url (sha256 (pyJsonDumpsSorted (acmeJwk n e)))

/-- The key authorization `token + "." + thumbprint` from `_solve_http01`. -/
def acmeKeyAuth (sha256 : String → List Nat) (n e token : String) : String :=
  token ++ "." ++ acmeThumbprint sha256 n e

/-- The publish step of `ACMEClient._solve_http01`: write
`token → key_auth` into the Registry's ACME challenge store with the default
300-second TTL. -/
def solveHttp01Publish (sha256 : String → List Nat) (n e token : String)
    (store : List (String × (String × Nat))) : List (String × (String × Nat)) :=
  aset store token (acmeKeyAuth sha256 n e token, 300)

/-! ## Deployment ordering (src/deployment/engine.py, _resolve_deploy_order)

The source builds `app_map = {a.id: a for a in apps}`, keeps a `visited` set
and an `order` list, and runs `visit` over each app: mark the id visited,
recurse into `depends_on`, then append the app.  There is no gray/black

distinction and no raise: an id already in `visited` simply returns.  The
recursion is embedded with explicit fuel; `resolveDeployOrder` supplies more
fuel than there are mentioned ids, which is shown to be enough. -/

/-- `app_map.get(x)` for `app_map = {a.id: a for a in apps}` (later entries
win, as for a Python dict comprehension). -/
def findApp (apps : List Application) (x : String) : Option Application :=
  apps.foldl (fun acc a => if a.id = x then some a else acc) none

/-- Membership in the plan's app map. -/
def inPlan (apps : List Application) (x : String) : Bool :=
  (findApp apps x).isSome

/-- Every id mentioned by the plan: app ids and dependency ids. -/
def allPlanIds (apps : List Application) : List String :=
  apps.map (fun a => a.id) ++ apps.flatMap (fun a => a.depends_on)

/-- `visit(app_id)` from `_resolve_deploy_order`, with fuel. -/
def visit (apps : List Application) : Nat → List String → List Application → String →
    List String × List Application
  | 0, v, o, _ => (v, o)
  | fuel + 1, v, o, x =>
    if x ∈ v then (v, o)
    else
      match findApp apps x with
      | none => (x :: v, o)
      | some a =>
        let r := a.depends_on.foldl (fun p d => visit apps fuel p.1 p.2 d) (x :: v, o)
        (r.1, r.2 ++ [a])

/-- `DeploymentEngine._resolve_deploy_order`: post-order DFS over `depends_on`
with a visited set; never raises. -/
def resolveDeployOrder (apps : List Application) : List Application :=
  (apps.foldl (fun p a => visit apps ((allPlanIds apps).length + 1) p.1 p.2 a.id) ([], [])).2

/-! ## Rolling deploy (src/deployment/engine.py, _run_deploy)

`_run_deploy` is a straight-line sequence of awaited steps inside one big
`try`.  The embedding threads an explicit registry/runtime state through the
step sequence, and a `DeployRun` oracle supplies the data produced by the
effectful steps (built image tag, new container ids, inspected upstreams)
plus the failure point, if any, at which a step raises. -/

/-- Registry plus container-runtime state visible to `_run_deploy`. -/
structure EngineState where
  deployments : List Deployment
  applications : List (String × Application)
  routes : List (String × Route)
  live : List String
  events : List String
deriving DecidableEq, Repr

/-- Read a deployment row by id. -/
def findDeployment (table : List Deployment) (depId : String) : Option Deployment :=
  table.find? (fun d => d.id == depId)

/-- `_stop_containers`: stop and force-delete each listed container. -/
def stopAndDelete (live : List String) (ids : List String) : List String :=
  live.filter (fun c => c ∉ ids)

/-- Containers created and started by `_run_containers`. -/
def startContainers (live : List String) (ids : List String) : List String :=
  live ++ ids

/-- Where (if anywhere) a step of `_run_deploy` raises.
`runContainers msg orphans` models a raise inside `_run_containers` after
`orphans` were already created and started: the local `new_container_ids`
of `_run_deploy` is still `[]` in that case, so those containers are never
cleaned up.  `setDeployRunning` models a registry raise after the
healthcheck but before the Application is rewritten; `setRoute` models
`registry.set_route` raising inside `_create_route`, after the cutover. -/
inductive FailPoint
  | ok
  | build (msg : String)
  | runContainers (msg : String) (orphans : List String)
  | healthcheck
  | setDeployRunning (msg : String)
  | setRoute (msg : String)
deriving DecidableEq, Repr

/-- Oracle data for one `_run_deploy` execution. -/
structure DeployRun where
  image : String
  newIds : List String
  upstreams : List Upstream
  finishedAt : Nat
  fp : FailPoint
deriving DecidableEq, Repr

/-- The `except Exception` branch of `_run_deploy`: mark the Deployment failed
with the captured error text, set the Application status to failed (keeping
whatever container set the local `app` variable holds), then stop and delete
the containers recorded in `new_container_ids`. -/
def deployFailPath (st : EngineState) (dep : Deployment) (app : Application) (msg : String)
    (finishedAt : Nat) (newIds : List String) : EngineState :=
  { st with
    deployments := setDeployment st.deployments
      { dep with status := .failed, logs := msg, finished_at := finishedAt }
    applications := aset st.applications app.id { app with status := .failed }
    live := stopAndDelete st.live newIds }

/-- `DeploymentEngine._create_route`: skipped when the app records no
containers or no upstream IP could be resolved; otherwise writes Route
`app-{app.id}` with host `app.domain`. -/
def engineCreateRoute (st : EngineState) (app : Application) (ups : List Upstream) :
    EngineState :=
  if app.container_ids = [] then st
  else if ups = [] then st
  else
    { st with
      routes := aset st.routes ("app-" ++ app.id)
        { id := "app-" ++ app.id, host := app.domain, upstreams := ups, protocol := .http } }

/-- `DeploymentEngine._run_deploy` for one Application and one pending
Deployment record, following the source line by line:
status `building` → build/pull → status `deploying` → start new replicas →
healthcheck gate → mark Deployment `running` → rewrite the Application to the
new container set → create the Route (when the app has a domain) → emit
`deploy_completed` → stop and delete the old containers.  On a raise at any
modelled failure point, control transfers to `deployFailPath`. -/
def runDeploy (o : DeployRun) (st0 : EngineState) (app : Application) (dep0 : Deployment) :
    EngineState :=
  let oldIds := app.container_ids
  let dep1 : Deployment := { dep0 with status := .building }
  let st1 : EngineState :=
    { st0 with
      deployments := setDeployment st0.deployments dep1
      applications := aset st0.applications app.id { app with status := .building } }
  match o.fp with
  | .build msg => deployFailPath st1 dep1 app msg o.finishedAt []
  | _ =>
    let dep2 : Deployment := { dep1 with status := .deploying, image := o.image }
    let st2 : EngineState :=
      { st1 with
        deployments := setDeployment st1.deployments dep2
        applications := aset st1.applications app.id { app with status := .deploying } }
    match o.fp with
    | .runContainers msg orphans =>
      let st3 := { st2 with live := startContainers st2.live orphans }
      deployFailPath st3 dep2 app msg o.finishedAt []
    | _ =>
      let st3 := { st2 with live := startContainers st2.live o.newIds }
      match o.fp with
      | .healthcheck =>
        deployFailPath st3 dep2 app "Healthcheck failed for new containers" o.finishedAt o.newIds
      | _ =>
        let dep3 : Deployment :=
          { dep2 with status := .running, container_ids := o.newIds, finished_at := o.finishedAt }
        match o.fp with
        | .setDeployRunning msg => deployFailPath st3 dep3 app msg o.finishedAt o.newIds
        | _ =>
          let st4 := { st3 with deployments := setDeployment st3.deployments dep3 }
          let app2 : Application :=
            { app with status := .running, container_ids := o.newIds, image := o.image }
          let st5 := { st4 with applications := aset st4.applications app.id app2 }
          match o.fp with
          | .setRoute msg =>
            if app2.domain ≠ "" then deployFailPath st5 dep3 app2 msg o.finishedAt o.newIds
            else
              let st7 := { st5 with events := st5.events ++ ["deploy_completed"] }
              { st7 with live := stopAndDelete st7.live oldIds }
          | _ =>
            let st6 := if app2.domain ≠ "" then engineCreateRoute st5 app2 o.upstreams else st5
            let st7 := { st6 with events := st6.events ++ ["deploy_completed"] }
            { st7 with live := stopAndDelete st7.live oldIds }

/-- The failure points that occur before `_run_deploy` rewrites the
Application to the new container set (the cutover). -/
def preCutover : FailPoint → Bool
  | .build _ => true
  | .runContainers _ _ => true
  | .healthcheck => true
  | .setDeployRunning _ => true
  | _ => false

/-- The error text `str(e)` captured in the failed Deployment's `logs`. -/
def failMsg : FailPoint → String
  | .build m => m
  | .runContainers m _ => m
  | .healthcheck => "Healthcheck failed for new containers"
  | .setDeployRunning m => m
  | .setRoute m => m
  | .ok => ""

/-- The contents of `new_container_ids` at the time the except branch runs:
empty unless the `_run_containers` assignment completed. -/
def recordedNewIds (o : DeployRun) : List String :=
  match o.fp with
  | .build _ => []
  | .runContainers _ _ => []
  | _ => o.newIds

/-! # Theorems -/

/-! ## C10 — GitHub webhook signature gate -/

/-- C10: `verify_github_signature` returns true whenever the stored secret is
the empty string (whatever the signature, including none); returns false
whenever the secret is non-empty but the signature header is empty; and only
when both are non-empty does it reduce to the HMAC-SHA256 compare-digest
check of `"sha256=" + hexdigest` against the header. -/
theorem C10_github_signature_gate (hm : String → String → String)
    (payload sig secret : String) :
    (secret = "" → verifyGithubSignature hm payload sig secret = true)
    ∧ (secret ≠ "" → sig = "" → verifyGithubSignature hm payload sig secret = false)
    ∧ (secret ≠ "" → sig ≠ "" →
        (verifyGithubSignature hm payload sig secret = true ↔
          "sha256=" ++ hm secret payload = sig)) := by
  refine ⟨?_, ?_, ?_⟩
  · intro h
    simp [verifyGithubSignature, h]
  · intro hs hsig
    simp [verifyGithubSignature, hsig, hs]
  · intro hs hsig
    simp [verifyGithubSignature, hs, hsig]

/-- Witness for C10 at concrete inputs: empty secret accepts, empty signature
with a non-empty secret rejects. -/
theorem C10_github_signature_gate_witness :
    verifyGithubSignature (fun _ _ => "d") "p" "x" "" = true
    ∧ verifyGithubSignature (fun _ _ => "d") "p" "" "s" = false := by
  refine ⟨(C10_github_signature_gate (fun _ _ => "d") "p" "x" "").1 rfl,
    (C10_github_signature_gate (fun _ _ => "d") "p" "" "s").2.1 (by decide) rfl⟩

/-! ## C9 — event bus delivery -/

/-- C9: `emit` dispatches to exactly the handlers registered for the event
name; with no registered handlers it returns the state unchanged; splitting
the handler list anywhere shows each handler runs on the state produced by
all handlers before it, in order, and the handlers after it still run —
whether or not it raised, since the caught-error step ignores the raised
error (`emitStep s h = (h.run s).1`), so no exception reaches the emitter;
registration (`on`) appends at the end of the event's handler list. -/
theorem C9_eventbus_emit (σ ε : Type) (bus : List (String × Handler σ ε)) (ev : String)
    (hs1 hs2 : List (Handler σ ε)) (h : Handler σ ε) (s : σ) :
    emit bus ev s = emitList (busHandlersFor bus ev) s
    ∧ (busHandlersFor bus ev = [] → emit bus ev s = s)
    ∧ emitList (hs1 ++ h :: hs2) s = emitList hs2 ((h.run (emitList hs1 s)).1)
    ∧ emitStep s h = (h.run s).1
    ∧ busHandlersFor (busOn bus ev h) ev = busHandlersFor bus ev ++ [h] := by
  refine ⟨rfl, ?_, ?_, emitStep_eq_fst s h, ?_⟩
  · intro he
    rw [emit, he]
    rfl
  · rw [emitList_append]
    show emitList (h :: hs2) (emitList hs1 s) = _
    rw [emitList, List.foldl_cons, emitStep_eq_fst]
    rfl
  · unfold busOn busHandlersFor
    rw [List.filter_append, List.map_append]
    simp

/-- Witness for C9: emitting on an empty bus leaves the state unchanged. -/
theorem C9_eventbus_emit_witness :
    emit ([] : List (String × Handler Nat Unit)) "deploy_completed" 3 = 3 :=
  (C9_eventbus_emit Nat Unit [] "deploy_completed" [] [] ⟨fun n => (n, none)⟩ 3).2.1 rfl

/-! ## C7 — webhook commit debounce -/

/-- C7: for a registered, enabled GitRepo, `_trigger_deploy` with a commit
equal to the stored `last_commit` returns `ignored` and leaves the whole
state untouched (no `webhook_received` event, `last_commit` and
`last_deploy_at` unchanged); with a different commit it returns `accepted`,
rewrites the stored repo with the new commit and `last_deploy_at = now`, and
appends exactly one `webhook_received` event to the bus log. -/
theorem C7_webhook_debounce (st : WebhookState) (repo : GitRepo) (commit : String)
    (hreg : alookup st.repos repo.id = some repo) (hen : repo.enabled = true) :
    (repo.last_commit = commit →
      triggerDeploy st repo commit = (st, .ignored "same commit"))
    ∧ (repo.last_commit ≠ commit →
        (triggerDeploy st repo commit).2 = .accepted repo.id commit
        ∧ alookup (triggerDeploy st repo commit).1.repos repo.id =
            some { repo with last_commit := commit, last_deploy_at := st.now }
        ∧ (triggerDeploy st repo commit).1.events =
            st.events ++ [("webhook_received", repo.id, commit)]
        ∧ (triggerDeploy st repo commit).1.now = st.now) := by
  constructor
  · intro h
    simp [triggerDeploy, h]
  · intro h
    refine ⟨?_, ?_, ?_, ?_⟩ <;>
      simp [triggerDeploy, h, updateGitRepoCommit, hreg, alookup_aset_self]

/-- A registered repo and webhook state used to witness C7. -/
def exRepo : GitRepo :=
  { id := "r1", provider := .github, url := "https://git.example/p.git", last_commit := "aaa" }

/-- Registry state holding `exRepo`. -/
def exWebhookState : WebhookState :=
  { repos := [("r1", exRepo)], events := [], now := 100 }

/-- Witness for C7 at a concrete state: a new commit is accepted and the
stored commit is rewritten. -/
theorem C7_webhook_debounce_witness :
    (triggerDeploy exWebhookState exRepo "bbb").2 = .accepted "r1" "bbb"
    ∧ alookup (triggerDeploy exWebhookState exRepo "bbb").1.repos "r1" =
        some { exRepo with last_commit := "bbb", last_deploy_at := 100 } := by
  have h := (C7_webhook_debounce exWebhookState exRepo "bbb" (by decide) rfl).2 (by decide)
  exact ⟨h.1, h.2.1⟩

/-! ## C4 — set_route idempotence and config:version -/

/-- Writing the same key and value twice is the same as writing once. -/
theorem aset_aset_same {α : Type} (l : List (String × α)) (k : String) (v : α) :
    aset (aset l k v) k v = aset l k v := by
  induction l with
  | nil => simp [aset]
  | cons p rest ih =>
    by_cases hp : p.1 = k
    · simp [aset, hp]
    · simp [aset, hp, ih]

/-- C4 (amended): `set_route(r)` followed by `get_route(r.id)` returns `r`,
and repeating `set_route(r)` leaves the durable row unchanged — but each call
unconditionally runs `INCR config:version`, so the repeated pair increments
the counter exactly twice (not at most once, as claimed). -/
theorem C4_set_route_roundtrip (db : SqlDb) (c : RedisCache) (r : Route) :
    sqlGetRoute (sqlSetRoute db c r).1 r.id = some r
    ∧ sqlGetRoute (sqlSetRoute (sqlSetRoute db c r).1 (sqlSetRoute db c r).2 r).1 r.id = some r
    ∧ (sqlSetRoute (sqlSetRoute db c r).1 (sqlSetRoute db c r).2 r).1.routesTable
        = (sqlSetRoute db c r).1.routesTable
    ∧ (sqlSetRoute db c r).2.configVersion = c.configVersion + 1
    ∧ (sqlSetRoute (sqlSetRoute db c r).1 (sqlSetRoute db c r).2 r).2.configVersion
        = c.configVersion + 2 := by
  refine ⟨alookup_aset_self _ _ _, ?_, ?_, rfl, rfl⟩
  · show alookup (aset (aset db.routesTable r.id r) r.id r) r.id = some r
    exact alookup_aset_self _ _ _
  · show aset (aset db.routesTable r.id r) r.id r = aset db.routesTable r.id r
    exact aset_aset_same _ _ _

/-- A concrete enabled route used by the C4 counterexample and the C5 bug
exhibit. -/
def exRoute : Route :=
  { id := "app-p-web", host := "web.example"
    upstreams := [{ address := "10.0.0.2", port := 80, container_id := some "c1" }] }

/-- Empty durable store. -/
def exDb : SqlDb := { routesTable := [], deploymentsTable := [] }

/-- Empty hot cache with `config:version = 0`. -/
def exCache : RedisCache :=
  { routes := [], hostIndex := [], enabledIndex := [], upstreams := [], configVersion := 0 }

/-- C4 counterexample: calling `set_route(r)` twice on a fresh store bumps
`config:version` from 0 to 2 — more than the "at most one increment across
the repetition" the claim allows. -/
theorem C4_counterexample :
    (sqlSetRoute (sqlSetRoute exDb exCache exRoute).1 (sqlSetRoute exDb exCache exRoute).2
        exRoute).2.configVersion = 2
    ∧ ¬(2 ≤ 0 + 1) := by
  exact ⟨rfl, by decide⟩

/-! ## C5 — delete_route index cleanup -/

/-- `RegistrySQL.delete_route` never touches the per-host index or the
enabled index, whatever the state. -/
theorem sqlDeleteRoute_indices_unchanged (db : SqlDb) (c : RedisCache) (rid : String) :
    (sqlDeleteRoute db c rid).2.1.hostIndex = c.hostIndex
    ∧ (sqlDeleteRoute db c rid).2.1.enabledIndex = c.enabledIndex := by
  unfold sqlDeleteRoute
  by_cases h : (alookup db.routesTable rid).isSome <;> simp [h]

/-- The Redis-only `Registry.delete_route` does remove the id from the
per-host set and the enabled set. -/
theorem redisDeleteRoute_removes_indices (c : RedisCache) (rid : String) (r : Route)
    (hr : alookup c.routes rid = some r) :
    (redisDeleteRoute c rid).2 = true
    ∧ (redisDeleteRoute c rid).1.enabledIndex = srem c.enabledIndex rid
    ∧ (redisDeleteRoute c rid).1.hostIndex = hostIndexRem c.hostIndex r.host rid
    ∧ alookup (redisDeleteRoute c rid).1.routes rid = none := by
  unfold redisDeleteRoute
  rw [hr]
  exact ⟨rfl, rfl, rfl, alookup_aerase_self _ _⟩

/-- Witness for the Redis-only delete at a concrete cache. -/
theorem redisDeleteRoute_removes_indices_witness :
    (redisDeleteRoute
      { routes := [("app-p-web", exRoute)], hostIndex := [("web.example", ["app-p-web"])]
        enabledIndex := ["app-p-web"], upstreams := [], configVersion := 3 } "app-p-web").2
      = true :=
  (redisDeleteRoute_removes_indices
    { routes := [("app-p-web", exRoute)], hostIndex := [("web.example", ["app-p-web"])]
      enabledIndex := ["app-p-web"], upstreams := [], configVersion := 3 }
    "app-p-web" exRoute (by decide)).1

/-- Durable store holding `exRoute`. -/
def exDb5 : SqlDb := { routesTable := [("app-p-web", exRoute)], deploymentsTable := [] }

/-- Hot cache fully populated for `exRoute`, including both index sets. -/
def exCache5 : RedisCache :=
  { routes := [("app-p-web", exRoute)], hostIndex := [("web.example", ["app-p-web"])]
    enabledIndex := ["app-p-web"], upstreams := [("app-p-web", ["10.0.0.2:80:1"])]
    configVersion := 7 }

/-- C5 (code bug, evaluated at the failing input): deleting the existing route
`app-p-web` via `RegistrySQL.delete_route` deletes the durable row, the
`routes:{id}` key and the `upstreams:{id}` key and bumps `config:version`,
but the stale id stays in `routes:index:host:web.example` and in
`routes:index:enabled` — the removals the spec requires (and that the
Redis-only `Registry.delete_route` performs) never happen. -/
theorem C5_sql_delete_route_stale_indices :
    (sqlDeleteRoute exDb5 exCache5 "app-p-web").2.2 = true
    ∧ sqlGetRoute (sqlDeleteRoute exDb5 exCache5 "app-p-web").1 "app-p-web" = none
    ∧ alookup (sqlDeleteRoute exDb5 exCache5 "app-p-web").2.1.routes "app-p-web" = none
    ∧ alookup (sqlDeleteRoute exDb5 exCache5 "app-p-web").2.1.upstreams "app-p-web" = none
    ∧ (sqlDeleteRoute exDb5 exCache5 "app-p-web").2.1.hostIndex
        = [("web.example", ["app-p-web"])]
    ∧ (sqlDeleteRoute exDb5 exCache5 "app-p-web").2.1.enabledIndex = ["app-p-web"]
    ∧ (sqlDeleteRoute exDb5 exCache5 "app-p-web").2.1.configVersion = 8 := by
  decide

/-! ## C3 — deployment version allocation -/

theorem maxVersion_eq_none (l : List Deployment) : maxVersion l = none ↔ l = [] := by
  cases l with
  | nil => simp [maxVersion]
  | cons d rest =>
    simp only [maxVersion]
    cases h : maxVersion rest <;> simp

theorem maxVersion_mem (l : List Deployment) (m : Nat) (h : maxVersion l = some m) :
    m ∈ l.map (fun d => d.version) := by
  induction l generalizing m with
  | nil => simp [maxVersion] at h
  | cons d rest ih =>
    simp only [maxVersion] at h
    cases hr : maxVersion rest with
    | none =>
      rw [hr] at h
      simp at h
      simp [h]
    | some m2 =>
      rw [hr] at h
      simp only [Option.some.injEq] at h
      rcases max_choice d.version m2 with hc | hc
      · rw [hc] at h
        subst h
        simp
      · rw [hc] at h
        subst h
        simp only [List.map_cons, List.mem_cons]
        right
        exact ih m2 hr

theorem maxVersion_ge (l : List Deployment) (m : Nat) (h : maxVersion l = some m) :
    ∀ x ∈ l.map (fun d => d.version), x ≤ m := by
  induction l generalizing m with
  | nil => simp
  | cons d rest ih =>
    simp only [maxVersion] at h
    cases hr : maxVersion rest with
    | none =>
      rw [hr] at h
      have hrest : rest = [] := (maxVersion_eq_none rest).mp hr
      subst hrest
      simp at h ⊢
      omega
    | some m2 =>
      rw [hr] at h
      simp at h
      intro x hx
      simp only [List.map_cons, List.mem_cons] at hx
      rcases hx with hx | hx
      · subst hx
        subst h
        exact le_max_left _ _
      · have := ih m2 hr x (by simpa using hx)
        subst h
        exact le_trans this (le_max_right _ _)

/-- When the new row's id is fresh, `set_deployment` appends. -/
theorem setDeployment_fresh (table : List Deployment) (d : Deployment)
    (h : ∀ d0 ∈ table, d0.id ≠ d.id) : setDeployment table d = table ++ [d] := by
  unfold setDeployment
  have hany : table.any (fun d0 => d0.id == d.id) = false := by
    rw [List.any_eq_false]
    intro d0 hd0
    simpa using h d0 hd0
  simp [hany]

/-- C3: version allocation returns 1 when the app has no deployments and the
highest existing version plus one otherwise; under the prefix invariant
(`{v : Deployment(app, v) exists} = {1, …, n}`) the new version is `n + 1`,
strictly greater than every previous version for that app, and writing the
pending Deployment record extends the version set to the prefix
`{1, …, n + 1}`. -/
theorem C3_deployment_version_monotone (table : List Deployment) (app : Application) (n : Nat)
    (hpre : VersionsPrefix table app.id n)
    (hfresh : ∀ d0 ∈ table,
      d0.id ≠ app.id ++ "-v" ++ toString (getNextDeploymentVersion table app.id)) :
    (engineDeployRecord table app).2.version = n + 1
    ∧ (versionsOf table app.id = [] → (engineDeployRecord table app).2.version = 1)
    ∧ (∀ d0 ∈ table, d0.app_id = app.id → d0.version < (engineDeployRecord table app).2.version)
    ∧ VersionsPrefix (engineDeployRecord table app).1 app.id (n + 1) := by
  have hver : getNextDeploymentVersion table app.id = n + 1 := by
    unfold getNextDeploymentVersion
    cases hm : maxVersion (table.filter (fun d => d.app_id == app.id)) with
    | none =>
      have hniln : versionsOf table app.id = [] := by
        unfold versionsOf
        rw [(maxVersion_eq_none _).mp hm]
        rfl
      have hn0 : n = 0 := by
        by_contra hne
        have h1 : (1 : Nat) ∈ versionsOf table app.id := (hpre 1).mpr ⟨le_refl 1, by omega⟩
        rw [hniln] at h1
        simp at h1
      show (1 : Nat) = n + 1
      omega
    | some m =>
      have hmem : m ∈ versionsOf table app.id := maxVersion_mem _ _ hm
      have hbound := (hpre m).mp hmem
      have hn1 : 1 ≤ n := le_trans hbound.1 hbound.2
      have hnmem : n ∈ versionsOf table app.id := (hpre n).mpr ⟨hn1, le_refl n⟩
      have hle : n ≤ m := maxVersion_ge _ _ hm n hnmem
      have : m = n := le_antisymm hbound.2 hle
      show m + 1 = n + 1
      omega
  have hdepv : (engineDeployRecord table app).2.version = n + 1 := by
    simpa [engineDeployRecord] using hver
  refine ⟨hdepv, ?_, ?_, ?_⟩
  · intro hnil
    show getNextDeploymentVersion table app.id = 1
    unfold getNextDeploymentVersion
    have : table.filter (fun d => d.app_id == app.id) = [] := by
      by_contra hne
      rcases List.exists_mem_of_ne_nil _ hne with ⟨d0, hd0⟩
      have : d0.version ∈ versionsOf table app.id := by
        unfold versionsOf
        exact List.mem_map_of_mem _ hd0
      rw [hnil] at this
      simp at this
    rw [this]
    rfl
  · intro d0 hd0 happ
    have : d0.version ∈ versionsOf table app.id := by
      unfold versionsOf
      refine List.mem_map_of_mem _ ?_
      rw [List.mem_filter]
      exact ⟨hd0, by simp [happ]⟩
    have := (hpre d0.version).mp this
    rw [hdepv]
    omega
  · have happend : (engineDeployRecord table app).1 =
        table ++ [(engineDeployRecord table app).2] := by
      show setDeployment table _ = _
      exact setDeployment_fresh _ _ hfresh
    intro w
    have hnewapp : (engineDeployRecord table app).2.app_id = app.id := rfl
    have hsplit : versionsOf (engineDeployRecord table app).1 app.id
        = versionsOf table app.id ++ [n + 1] := by
      rw [happend]
      unfold versionsOf
      rw [List.filter_append, List.map_append]
      congr 1
      simp [engineDeployRecord, hver]
    rw [hsplit]
    rw [List.mem_append]
    constructor
    · rintro (hw | hw)
      · have := (hpre w).mp hw
        omega
      · simp at hw
        omega
    · intro hw
      by_cases hwn : w = n + 1
      · right
        simp [hwn]
      · left
        exact (hpre w).mpr ⟨hw.1, by omega⟩

/-- Witness for C3: one existing deployment at version 1; the next deploy
records version 2 and the version set becomes `{1, 2}`. -/
theorem C3_deployment_version_monotone_witness :
    (engineDeployRecord
      [{ id := "p-web-v1", app_id := "p-web", version := 1, status := .running }]
      { id := "p-web", project_id := "p", name := "web", source := .image }).2.version = 2 := by
  refine (C3_deployment_version_monotone
    [{ id := "p-web-v1", app_id := "p-web", version := 1, status := .running }]
    { id := "p-web", project_id := "p", name := "web", source := .image } 1 ?_ ?_).1
  · intro v
    constructor
    · intro hv
      simp [versionsOf] at hv
      omega
    · intro hv
      have : v = 1 := by omega
      subst this
      simp [versionsOf]

  · intro d0 hd0
    simp at hd0
    subst hd0
    decide

/-! ## C8 — ACME HTTP-01 key authorization -/

theorem string_append_assoc (a b c : String) : a ++ b ++ c = a ++ (b ++ c) := by
  cases a with | mk da =>
  cases b with | mk db =>
  cases c with | mk dc =>
  show String.mk (da ++ db ++ dc) = String.mk (da ++ (db ++ dc))
  rw [List.append_assoc]

theorem b64Char_ne_eq (n : Nat) : b64Char n ≠ '=' := by
  unfold b64Char
  cases h : b64Alphabet[n]? with
  | none =>
    rw [List.getD_eq_getElem?_getD, h]
    decide
  | some c =>
    rw [List.getD_eq_getElem?_getD, h]
    have hc : c ∈ b64Alphabet := List.getElem?_mem h
    have hnm : ('=' : Char) ∉ b64Alphabet := by decide
    intro heq
    simp only [Option.getD_some] at heq
    rw [heq] at hc
    exact hnm hc

theorem b64_chunks_split (bs : List Nat) :
    ∃ body pad, b64EncodeChunks bs = body ++ pad
      ∧ (∀ c ∈ body, c ≠ '=') ∧ (∀ c ∈ pad, c = '=') := by
  match bs with
  | [] => exact ⟨[], [], rfl, by simp, by simp⟩
  | [b1] =>
    refine ⟨[b64Char (b1 % 256 / 4), b64Char (b1 % 256 % 4 * 16)], ['=', '='], rfl, ?_, by simp⟩
    intro c hc
    simp only [List.mem_cons, List.not_mem_nil, or_false] at hc
    rcases hc with hc | hc <;> (subst hc; exact b64Char_ne_eq _)
  | [b1, b2] =>
    refine ⟨[b64Char (b1 % 256 / 4), b64Char (b1 % 256 % 4 * 16 + b2 % 256 / 16),
      b64Char (b2 % 256 % 16 * 4)], ['='], rfl, ?_, by simp⟩
    intro c hc
    simp only [List.mem_cons, List.not_mem_nil, or_false] at hc
    rcases hc with hc | hc | hc <;> (subst hc; exact b64Char_ne_eq _)
  | b1 :: b2 :: b3 :: rest =>
    obtain ⟨body, pad, heq, hb, hp⟩ := b64_chunks_split rest
    refine ⟨b64Char (b1 % 256 / 4) :: b64Char (b1 % 256 % 4 * 16 + b2 % 256 / 16) ::
      b64Char (b2 % 256 % 16 * 4 + b3 % 256 / 64) :: b64Char (b3 % 256 % 64) :: body, pad,
      ?_, ?_, hp⟩
    · show b64EncodeChunks (b1 :: b2 :: b3 :: rest) = _
      rw [b64EncodeChunks, heq]
      rfl
    · intro c hc
      simp only [List.mem_cons] at hc
      rcases hc with hc | hc | hc | hc | hc
      · subst hc; exact b64Char_ne_eq _
      · subst hc; exact b64Char_ne_eq _
      · subst hc; exact b64Char_ne_eq _
      · subst hc; exact b64Char_ne_eq _
      · exact hb c hc

theorem dropWhile_append_all (p : Char → Bool) (xs ys : List Char)
    (h : ∀ x ∈ xs, p x = true) : (xs ++ ys).dropWhile p = ys.dropWhile p := by
  induction xs with
  | nil => rfl
  | cons x rest ih =>
    rw [List.cons_append, List.dropWhile_cons, h x (by simp)]
    exact ih (fun y hy => h y (by simp [hy]))

theorem dropWhile_eq_self_of_none (p : Char → Bool) (xs : List Char)
    (h : ∀ x ∈ xs, p x = false) : xs.dropWhile p = xs := by
  cases xs with
  | nil => rfl
  | cons x rest =>
    rw [List.dropWhile_cons, h x (by simp)]
    simp

/-- `b64url` output never contains a padding character: the `.rstrip(b"=")`
removes exactly the trailing padding and the body alphabet has no `=`. -/
theorem b64url_no_padding (bs : List Nat) : '=' ∉ (b64url bs).toList := by
  obtain ⟨body, pad, heq, hb, hp⟩ := b64_chunks_split bs
  unfold b64url
  rw [heq]
  show '=' ∉ ((body ++ pad).reverse.dropWhile (· == '=')).reverse
  rw [List.reverse_append]
  rw [dropWhile_append_all _ pad.reverse body.reverse
    (fun x hx => by simp [hp x (by simpa using hx)])]
  rw [dropWhile_eq_self_of_none _ body.reverse
    (fun x hx => by simp [hb x (by simpa using hx)])]
  rw [List.reverse_reverse]
  intro hmem
  exact hb '=' hmem rfl

theorem string_data_ext (a b : String) (h : a.data = b.data) : a = b := by
  cases a
  cases b
  exact congrArg String.mk h

/-- The JWK dict `{kty, n, e}` serializes with its keys sorted
lexicographically (`e < kty < n`) and without whitespace. -/
theorem acme_jwk_sorted_json (n e : String) :
    pyJsonDumpsSorted (acmeJwk n e)
      = "\x7b\"e\":" ++ (jsonStr e ++ (",\"kty\":\"RSA\",\"n\":" ++ (jsonStr n ++ "\x7d"))) := by
  have hsort : sortByKey (acmeJwk n e) = [("e", e), ("kty", "RSA"), ("n", n)] := rfl
  apply string_data_ext
  unfold pyJsonDumpsSorted
  rw [hsort]
  show ("\x7b" ++ joinComma
      [jsonStr "e" ++ ":" ++ jsonStr e, jsonStr "kty" ++ ":" ++ jsonStr "RSA",
       jsonStr "n" ++ ":" ++ jsonStr n] ++ "\x7d").data = _
  unfold joinComma
  have hd : ∀ a b : String, (a ++ b).data = a.data ++ b.data := fun _ _ => rfl
  simp only [hd, List.append_assoc]
  rfl

/-- C8: `_solve_http01` publishes, under the challenge token with a 300 s TTL,
exactly `token + "." + thumbprint`, where the thumbprint is the base64url
encoding — without padding — of the SHA-256 of the compact JSON serialization
of the account JWK, whose keys `e, kty, n` appear in lexicographic order with
no whitespace. -/
theorem C8_acme_challenge_key_auth (sha : String → List Nat) (n e token : String)
    (store : List (String × (String × Nat))) :
    alookup (solveHttp01Publish sha n e token store) token
      = some (token ++ "." ++ acmeThumbprint sha n e, 300)
    ∧ acmeThumbprint sha n e = b64url (sha (pyJsonDumpsSorted (acmeJwk n e)))
    ∧ pyJsonDumpsSorted (acmeJwk n e)
        = "\x7b\"e\":" ++ (jsonStr e ++ (",\"kty\":\"RSA\",\"n\":" ++ (jsonStr n ++ "\x7d")))
    ∧ '=' ∉ (acmeThumbprint sha n e).toList := by
  refine ⟨?_, rfl, acme_jwk_sorted_json n e, b64url_no_padding _⟩
  exact alookup_aset_self _ _ _

/-! ## C2 — deploy failure leaves the old state serving -/

theorem findDeployment_setDeployment_self (t : List Deployment) (d : Deployment) :
    findDeployment (setDeployment t d) d.id = some d := by
  unfold setDeployment findDeployment
  by_cases h : t.any (fun d0 => d0.id == d.id)
  · simp only [h, if_true]
    induction t with
    | nil => simp at h
    | cons d0 rest ih =>
      simp only [List.map_cons]
      by_cases h0 : (d0.id == d.id) = true
      · rw [if_pos h0]
        rw [List.find?_cons_of_pos _ (by simp)]
      · rw [if_neg h0]
        rw [List.find?_cons_of_neg _ (by simpa using h0)]
        simp only [List.any_cons, h0, Bool.false_or] at h
        exact ih h
  · simp only [h, Bool.false_eq_true, if_false]
    induction t with
    | nil =>
      rw [List.nil_append, List.find?_cons_of_pos _ (by simp)]
    | cons d0 rest ih =>
      simp only [List.any_cons, Bool.or_eq_true, not_or] at h
      rw [List.cons_append, List.find?_cons_of_neg _ (by simp [h.1])]
      exact ih (by simp [h.2])

theorem stopAndDelete_nil (l : List String) : stopAndDelete l [] = l := by
  simp [stopAndDelete]

theorem mem_stopAndDelete (l ids : List String) (c : String) :
    c ∈ stopAndDelete l ids ↔ (c ∈ l ∧ c ∉ ids) := by
  simp [stopAndDelete]

/-- C2 (amended): whenever a step of `_run_deploy` raises before the
Application is rewritten to the new container set — building/pulling, the
container-startup step, the healthcheck gate never passing, or the registry
write after the gate — the Deployment record is marked `failed` with the
captured error text, the containers recorded in `new_container_ids` are
stopped and deleted, the Application keeps its old container set (with status
`failed`), old containers are left running, and no Route is created or
mutated (nor any event emitted).  Containers created during a
`_run_containers` call that itself raises are not recorded and hence not
cleaned up; and a raise after the cutover (e.g. in `set_route`) leaves the
Application pointing at the new, deleted containers — see the
counterexample. -/
theorem C2_deploy_failure_rollback (o : DeployRun) (st : EngineState) (app : Application)
    (dep : Deployment)
    (hfp : preCutover o.fp = true)
    (hdisj : ∀ c ∈ app.container_ids, c ∉ o.newIds) :
    (∃ d, findDeployment (runDeploy o st app dep).deployments dep.id = some d
        ∧ d.status = .failed ∧ d.logs = failMsg o.fp)
    ∧ (∃ a, alookup (runDeploy o st app dep).applications app.id = some a
        ∧ a.container_ids = app.container_ids ∧ a.status = .failed)
    ∧ (∀ c ∈ recordedNewIds o, c ∉ (runDeploy o st app dep).live)
    ∧ (∀ c ∈ app.container_ids, c ∈ st.live → c ∈ (runDeploy o st app dep).live)
    ∧ (runDeploy o st app dep).routes = st.routes
    ∧ (runDeploy o st app dep).events = st.events := by
  obtain ⟨img, newIds, ups, fin, fp⟩ := o
  cases fp with
  | ok => simp [preCutover] at hfp
  | setRoute msg => simp [preCutover] at hfp
  | build msg =>
    refine ⟨⟨_, findDeployment_setDeployment_self _ _, rfl, rfl⟩,
      ⟨_, alookup_aset_self _ _ _, rfl, rfl⟩, ?_, ?_, rfl, rfl⟩
    · intro c hc
      simp [recordedNewIds] at hc
    · intro c _ hl
      show c ∈ stopAndDelete st.live []
      rw [stopAndDelete_nil]
      exact hl
  | runContainers msg orphans =>
    refine ⟨⟨_, findDeployment_setDeployment_self _ _, rfl, rfl⟩,
      ⟨_, alookup_aset_self _ _ _, rfl, rfl⟩, ?_, ?_, rfl, rfl⟩
    · intro c hc
      simp [recordedNewIds] at hc
    · intro c _ hl
      show c ∈ stopAndDelete (startContainers st.live orphans) []
      rw [stopAndDelete_nil]
      exact List.mem_append_left _ hl
  | healthcheck =>
    refine ⟨⟨_, findDeployment_setDeployment_self _ _, rfl, rfl⟩,
      ⟨_, alookup_aset_self _ _ _, rfl, rfl⟩, ?_, ?_, rfl, rfl⟩
    · intro c hc
      show c ∉ stopAndDelete (startContainers st.live newIds) newIds
      rw [mem_stopAndDelete]
      intro hmem
      exact hmem.2 hc
    · intro c hc hl
      show c ∈ stopAndDelete (startContainers st.live newIds) newIds
      rw [mem_stopAndDelete]
      exact ⟨List.mem_append_left _ hl, hdisj c hc⟩
  | setDeployRunning msg =>
    refine ⟨⟨_, findDeployment_setDeployment_self _ _, rfl, rfl⟩,
      ⟨_, alookup_aset_self _ _ _, rfl, rfl⟩, ?_, ?_, rfl, rfl⟩
    · intro c hc
      show c ∉ stopAndDelete (startContainers st.live newIds) newIds
      rw [mem_stopAndDelete]
      intro hmem
      exact hmem.2 hc
    · intro c hc hl
      show c ∈ stopAndDelete (startContainers st.live newIds) newIds
      rw [mem_stopAndDelete]
      exact ⟨List.mem_append_left _ hl, hdisj c hc⟩

/-- An application serving from the old container `old1`, used by C2. -/
def exApp2 : Application :=
  { id := "p-web", project_id := "p", name := "web", source := .image
    domain := "web.example", container_ids := ["old1"] }

/-- The pending Deployment record for the new attempt. -/
def exDep2 : Deployment :=
  { id := "p-web-v2", app_id := "p-web", version := 2, status := .pending }

/-- Engine state before the attempt: `old1` running, app registered. -/
def exState2 : EngineState :=
  { deployments := [], applications := [("p-web", exApp2)], routes := [], live := ["old1"]
    events := [] }

/-- Oracle: the new replica `new1` starts and passes the healthcheck, but
`set_route` raises after the Application was already rewritten. -/
def exRun2 : DeployRun :=
  { image := "nginx:1.25", newIds := ["new1"], upstreams := [], finishedAt := 50
    fp := .setRoute "db write failed" }

/-- C2 counterexample: when the raising step is `set_route` — after the
healthcheck passed and the Application was rewritten — the Application does
NOT keep its old container set: it records `["new1"]` (the new containers,
which the except branch then stops and deletes), not `["old1"]`, refuting the
claim's universally quantified "the Application keeps its old container set"
over all raising steps. -/
theorem C2_counterexample :
    (alookup (runDeploy exRun2 exState2 exApp2 exDep2).applications "p-web").map
        (fun a => a.container_ids) = some ["new1"]
    ∧ ["new1"] ≠ ["old1"] := by
  exact ⟨rfl, by decide⟩

/-- Oracle for the C2 witness: the healthcheck gate never passes. -/
def exRun2h : DeployRun :=
  { image := "nginx:1.25", newIds := ["new1"], upstreams := [], finishedAt := 50
    fp := .healthcheck }

/-- Witness for C2 at the healthcheck-timeout failure: the route table is
untouched and the old container is still live. -/
theorem C2_deploy_failure_rollback_witness :
    (runDeploy exRun2h exState2 exApp2 exDep2).routes = exState2.routes
    ∧ "old1" ∈ (runDeploy exRun2h exState2 exApp2 exDep2).live
    ∧ "new1" ∉ (runDeploy exRun2h exState2 exApp2 exDep2).live := by
  have h := C2_deploy_failure_rollback exRun2h exState2 exApp2 exDep2 rfl (by decide)
  refine ⟨h.2.2.2.2.1, ?_, ?_⟩
  · exact h.2.2.2.1 "old1" (by decide) (by decide)
  · exact h.2.2.1 "new1" (by decide)

/-! ## C6 — routing-label parsing -/

theorem alookup_mem {α : Type} (l : List (String × α)) (k : String) (v : α)
    (h : alookup l k = some v) : (k, v) ∈ l := by
  induction l with
  | nil => simp [alookup] at h
  | cons p rest ih =>
    unfold alookup at h
    by_cases hp : p.1 = k
    · rw [if_pos hp] at h
      injection h with h
      have hpv : p = (k, v) := by
        obtain ⟨p1, p2⟩ := p
        simp at hp h
        simp [hp, h]
      rw [← hpv]
      exact List.mem_cons_self _ _
    · rw [if_neg hp] at h
      exact List.mem_cons_of_mem _ (ih h)

theorem mem_alookup {α : Type} (l : List (String × α)) (k : String) (v : α)
    (hnd : (l.map Prod.fst).Nodup) (h : (k, v) ∈ l) : alookup l k = some v := by
  induction l with
  | nil => simp at h
  | cons p rest ih =>
    rcases List.mem_cons.mp h with h1 | h1
    · rw [← h1]
      simp [alookup]
    · have hk : p.1 ≠ k := by
        intro he
        have hmem : k ∈ rest.map Prod.fst := by
          exact List.mem_map_of_mem Prod.fst h1
        rw [List.map_cons, List.nodup_cons] at hnd
        rw [he] at hnd
        exact hnd.1 hmem
      unfold alookup
      rw [if_neg hk]
      exact ih (by rw [List.map_cons, List.nodup_cons] at hnd; exact hnd.2) h1

theorem aset_keys {α : Type} (l : List (String × α)) (k : String) (v : α) :
    (aset l k v).map Prod.fst
      = if k ∈ l.map Prod.fst then l.map Prod.fst else l.map Prod.fst ++ [k] := by
  induction l with
  | nil => simp [aset]
  | cons p rest ih =>
    by_cases hp : p.1 = k
    · simp [aset, hp]
    · rw [List.map_cons]
      have hne : k ∈ p.1 :: rest.map Prod.fst ↔ k ∈ rest.map Prod.fst := by
        simp [List.mem_cons, Ne.symm hp]
      by_cases hm : k ∈ rest.map Prod.fst
      · rw [if_pos (hne.mpr hm)]
        simp only [aset, hp, if_false, List.map_cons]
        rw [ih, if_pos hm]
      · rw [if_neg (fun hc => hm (hne.mp hc))]
        simp only [aset, hp, if_false, List.map_cons]
        rw [ih, if_neg hm]
        rfl

theorem aset_keys_nodup {α : Type} (l : List (String × α)) (k : String) (v : α)
    (h : (l.map Prod.fst).Nodup) : ((aset l k v).map Prod.fst).Nodup := by
  rw [aset_keys]
  by_cases hm : k ∈ l.map Prod.fst
  · rw [if_pos hm]
    exact h
  · rw [if_neg hm]
    rw [List.nodup_append]
    exact ⟨h, List.nodup_singleton k, by simpa using hm⟩

theorem groupSet_keys_nodup (routers : List (String × List (String × String)))
    (name prop v : String) (h : (routers.map Prod.fst).Nodup) :
    ((groupSet routers name prop v).map Prod.fst).Nodup := by
  unfold groupSet
  cases alookup routers name with
  | none => exact aset_keys_nodup _ _ _ h
  | some props => exact aset_keys_nodup _ _ _ h

theorem buildRouters_keys_nodup (labelPrefix : String) (labels : List (String × String)) :
    ((buildRouters labelPrefix labels).map Prod.fst).Nodup := by
  unfold buildRouters
  have hgen : ∀ (ls : List (String × String)) (init : List (String × List (String × String))),
      (init.map Prod.fst).Nodup →
      ((ls.foldl
        (fun routers kv =>
          if pyStartsWith kv.1 (routersPrefix labelPrefix) then
            match splitOnceDot (pyDrop kv.1 (routersPrefix labelPrefix).length).toList with
            | none => routers
            | some (nameCs, propCs) => groupSet routers (String.mk nameCs) (String.mk propCs) kv.2
          else routers) init).map Prod.fst).Nodup := by
    intro ls
    induction ls with
    | nil => intro init h; exact h
    | cons kv rest ih =>
      intro init h
      rw [List.foldl_cons]
      apply ih
      by_cases hs : pyStartsWith kv.1 (routersPrefix labelPrefix)
      · rw [if_pos hs]
        cases hsp : splitOnceDot (pyDrop kv.1 (routersPrefix labelPrefix).length).toList with
        | none => exact h
        | some np =>
          obtain ⟨nameCs, propCs⟩ := np
          exact groupSet_keys_nodup _ _ _ _ h
      · rw [if_neg hs]
        exact h
  exact hgen labels [] (by simp)

theorem string_append_left_cancel (s a b : String) (h : s ++ a = s ++ b) : a = b := by
  apply string_data_ext
  have hd : s.data ++ a.data = s.data ++ b.data := by
    have : (s ++ a).data = (s ++ b).data := by rw [h]
    exact this
  exact List.append_cancel_left hd

theorem routesOfGroups_spec (cid ip : String)
    (groups : List (String × List (String × String)))
    (hports : ∀ name props, (name, props) ∈ groups → hostOf props ≠ "" →
      ∃ k, portOf props = Except.ok k) :
    ∃ routes, routesOfGroups cid ip groups = .ok routes
    ∧ (∀ r ∈ routes, ∃ name props, (name, props) ∈ groups ∧ hostOf props ≠ ""
        ∧ ∃ p, portOf props = Except.ok p ∧ r = builtRoute cid ip name props p)
    ∧ (∀ name props, (name, props) ∈ groups → hostOf props ≠ "" →
        ∃ p, portOf props = Except.ok p ∧ builtRoute cid ip name props p ∈ routes) := by
  induction groups with
  | nil => exact ⟨[], rfl, by simp, by simp⟩
  | cons g rest ih =>
    obtain ⟨name, props⟩ := g
    obtain ⟨routes, heq, hcompl, hexist⟩ :=
      ih (fun n p hm hh => hports n p (List.mem_cons_of_mem _ hm) hh)
    by_cases hh : hostOf props = ""
    · have hmk : mkGroupRoute cid ip name props = .ok none := by
        simp [mkGroupRoute, hh]
      refine ⟨routes, ?_, ?_, ?_⟩
      · show routesOfGroups cid ip ((name, props) :: rest) = .ok routes
        unfold routesOfGroups
        rw [hmk]
        exact heq
      · intro r hr
        obtain ⟨n2, p2, hm2, rest2⟩ := hcompl r hr
        exact ⟨n2, p2, List.mem_cons_of_mem _ hm2, rest2⟩
      · intro n p hm hh2
        rcases List.mem_cons.mp hm with h1 | h1
        · exfalso
          injection h1 with e1 e2
          rw [e2] at hh2
          exact hh2 hh
        · obtain ⟨p2, hp2, hmem2⟩ := hexist n p h1 hh2
          exact ⟨p2, hp2, hmem2⟩
    · obtain ⟨k, hk⟩ := hports name props (List.mem_cons_self _ _) hh
      have hmk : mkGroupRoute cid ip name props
          = .ok (some (builtRoute cid ip name props k)) := by
        simp [mkGroupRoute, hh, hk]
      refine ⟨builtRoute cid ip name props k :: routes, ?_, ?_, ?_⟩
      · show routesOfGroups cid ip ((name, props) :: rest) = _
        unfold routesOfGroups
        rw [hmk, heq]
      · intro r hr
        rcases List.mem_cons.mp hr with h1 | h1
        · exact ⟨name, props, List.mem_cons_self _ _, hh, k, hk, h1⟩
        · obtain ⟨n2, p2, hm2, rest2⟩ := hcompl r h1
          exact ⟨n2, p2, List.mem_cons_of_mem _ hm2, rest2⟩
      · intro n p hm hh2
        rcases List.mem_cons.mp hm with h1 | h1
        · injection h1 with e1 e2
          subst e1
          subst e2
          exact ⟨k, hk, List.mem_cons_self _ _⟩
        · obtain ⟨p2, hp2, hmem2⟩ := hexist n p h1 hh2
          exact ⟨p2, hp2, List.mem_cons_of_mem _ hmem2⟩

/-- C6 (amended): with at least one IP and every present `port` prop of a
hosted router group parsing as an integer, label parsing succeeds and yields
exactly one Route per router group whose stripped host is non-empty: that
route has id `{container_short_id}-{router}` and exactly the fields of
`builtRoute` — host with backticks (and whitespace) stripped, port defaulting
to 80, path defaulting to `/`, protocol https iff the `tls` prop lowercased
equals `"true"` (case-insensitively, not only for the exact string `"true"`),
middlewares split on commas, `preserve_host` defaulting to true — groups
without a host yield no route, and no other routes are produced.  A hosted
group whose `port` prop does not parse makes Python `int()` raise, so the
whole parse yields no routes (hence the hypothesis). -/
theorem C6_parse_labels (labelPrefix proxyNetwork cid : String)
    (labels ips : List (String × String)) (hip : ips ≠ [])
    (hports : ∀ name props, alookup (buildRouters labelPrefix labels) name = some props →
      hostOf props ≠ "" → ∃ k, portOf props = Except.ok k) :
    ∃ routes, parseLabels labelPrefix proxyNetwork labels cid ips = .ok routes
    ∧ (∀ name props, alookup (buildRouters labelPrefix labels) name = some props →
        ((hostOf props = "" → ∀ r ∈ routes, r.id ≠ cid ++ "-" ++ name)
         ∧ (hostOf props ≠ "" → ∃ p, portOf props = Except.ok p
             ∧ builtRoute cid (ipChoice proxyNetwork ips) name props p ∈ routes
             ∧ ∀ r ∈ routes, r.id = cid ++ "-" ++ name →
                 r = builtRoute cid (ipChoice proxyNetwork ips) name props p)))
    ∧ (∀ r ∈ routes, ∃ name props,
        alookup (buildRouters labelPrefix labels) name = some props ∧ hostOf props ≠ ""
        ∧ ∃ p, portOf props = Except.ok p
        ∧ r = builtRoute cid (ipChoice proxyNetwork ips) name props p) := by
  have hnd := buildRouters_keys_nodup labelPrefix labels
  have hports2 : ∀ name props, (name, props) ∈ buildRouters labelPrefix labels →
      hostOf props ≠ "" → ∃ k, portOf props = Except.ok k :=
    fun n p hm hh => hports n p (mem_alookup _ _ _ hnd hm) hh
  obtain ⟨routes, heq, hcompl, hexist⟩ :=
    routesOfGroups_spec cid (ipChoice proxyNetwork ips) _ hports2
  have idname : ∀ n2 p2 pv, (builtRoute cid (ipChoice proxyNetwork ips) n2 p2 pv).id
      = (cid ++ "-") ++ n2 := fun _ _ _ => rfl
  refine ⟨routes, ?_, ?_, ?_⟩
  · unfold parseLabels
    rw [if_neg hip]
    exact heq
  · intro name props hl
    have hmem := alookup_mem _ _ _ hl
    constructor
    · intro hh r hr hid
      obtain ⟨n2, p2, hm2, hh2, p, hp, hr2⟩ := hcompl r hr
      rw [hr2, idname] at hid
      have hn : n2 = name := string_append_left_cancel (cid ++ "-") n2 name hid
      subst hn
      have hpp : p2 = props := by
        have e1 := mem_alookup _ _ _ hnd hm2
        rw [hl] at e1
        injection e1 with e2
        exact e2.symm
      rw [hpp] at hh2
      exact hh2 hh
    · intro hh
      obtain ⟨p, hp, hmemR⟩ := hexist name props hmem hh
      refine ⟨p, hp, hmemR, ?_⟩
      intro r hr hid
      obtain ⟨n2, p2, hm2, hh2, p2v, hp2, hr2⟩ := hcompl r hr
      rw [hr2, idname] at hid
      have hn : n2 = name := string_append_left_cancel (cid ++ "-") n2 name hid
      subst hn
      have hpp : p2 = props := by
        have e1 := mem_alookup _ _ _ hnd hm2
        rw [hl] at e1
        injection e1 with e2
        exact e2.symm
      subst hpp
      have hpv : p2v = p := by
        rw [hp] at hp2
        injection hp2 with e
        exact e.symm
      rw [hr2, hpv]
  · intro r hr
    obtain ⟨n2, p2, hm2, hh2, p, hp, hr2⟩ := hcompl r hr
    exact ⟨n2, p2, mem_alookup _ _ _ hnd hm2, hh2, p, hp, hr2⟩

/-- Labels of a container with one router group whose `tls` prop is the
string `"True"` (capital T). -/
def exLabels6 : List (String × String) :=
  [("vo.http.routers.web.host", "ex.example"), ("vo.http.routers.web.tls", "True")]

/-- C6 counterexample: with `tls = "True"` — a value different from the
claim's exact string `"true"` — the parsed route's protocol is still https
(the code lowercases before comparing), so "protocol https iff tls is
\"true\"" is false as stated. -/
theorem C6_counterexample :
    parseLabels "vo." "vo-proxy" exLabels6 "abc123def456" [("vo-proxy", "10.0.0.5")]
      = .ok [{ id := "abc123def456-web", host := "ex.example", protocol := .https,
               upstreams := [{ address := "10.0.0.5", port := 80,
                               container_id := some "abc123def456" }] }]
    ∧ ("True" : String) ≠ "true" := by
  exact ⟨rfl, by decide⟩

/-- Labels for the C6 witness: one hosted router group with an explicit
numeric port. -/
def exLabels6w : List (String × String) :=
  [("vo.http.routers.web.host", "ex.example"), ("vo.http.routers.web.port", "8080")]

/-- Witness for C6: the concrete parse succeeds, and the route for group
`web` is exactly the built route with port 8080. -/
theorem C6_parse_labels_witness :
    ∃ routes, parseLabels "vo." "vo-proxy" exLabels6w "abc123def456"
        [("vo-proxy", "10.0.0.5")] = .ok routes
      ∧ builtRoute "abc123def456" "10.0.0.5" "web"
          [("host", "ex.example"), ("port", "8080")] 8080 ∈ routes := by
  have hports : ∀ name props, alookup (buildRouters "vo." exLabels6w) name = some props →
      hostOf props ≠ "" → ∃ k, portOf props = Except.ok k := by
    intro name props h _
    rw [show buildRouters "vo." exLabels6w
        = [("web", [("host", "ex.example"), ("port", "8080")])] from rfl] at h
    unfold alookup at h
    by_cases hn : ("web" : String) = name
    · rw [if_pos hn] at h
      injection h with h
      rw [← h]
      exact ⟨8080, rfl⟩
    · rw [if_neg hn] at h
      simp [alookup] at h
  obtain ⟨routes, heq, hchar, _⟩ := C6_parse_labels "vo." "vo-proxy" "abc123def456"
    exLabels6w [("vo-proxy", "10.0.0.5")] (by decide) hports
  have hg : alookup (buildRouters "vo." exLabels6w) "web"
      = some [("host", "ex.example"), ("port", "8080")] := rfl
  obtain ⟨p, hp, hmem, _⟩ := (hchar "web" _ hg).2 (by decide)
  have hp8080 : p = 8080 := by
    have h0 : portOf [("host", "ex.example"), ("port", "8080")]
        = (Except.ok 8080 : Except String Int) := rfl
    rw [h0] at hp
    injection hp with e
    exact e.symm
  rw [hp8080] at hmem
  have hipc : ipChoice "vo-proxy" [("vo-proxy", "10.0.0.5")] = "10.0.0.5" := rfl
  rw [hipc] at hmem
  exact ⟨routes, heq, hmem⟩

/-! ## C1 — deploy ordering -/

/-- The ids of an app list, in order. -/
def idsOf (l : List Application) : List String :=
  l.map (fun a => a.id)

/-- `DepClosedAux apps seen o`: walking `o` left to right, every in-plan
dependency of each element appears among `seen` or among the elements already
walked — i.e. every dependency precedes its dependents. -/
def DepClosedAux (apps : List Application) : List String → List Application → Prop
  | _, [] => True
  | seen, a :: rest =>
    (∀ d ∈ a.depends_on, inPlan apps d = true → d ∈ seen)
    ∧ DepClosedAux apps (seen ++ [a.id]) rest

/-- In the produced order, every in-plan dependency precedes its dependents. -/
def DepClosed (apps : List Application) (o : List Application) : Prop :=
  DepClosedAux apps [] o

/-- An acyclicity certificate: a rank function decreasing along in-plan
dependency edges. -/
def RankOK (apps : List Application) (rank : String → Nat) : Prop :=
  ∀ a ∈ apps, ∀ d ∈ a.depends_on, inPlan apps d = true → rank d < rank a.id

theorem findApp_aux (apps : List Application) (x : String) (acc : Option Application)
    (a : Application)
    (h : apps.foldl (fun acc a => if a.id = x then some a else acc) acc = some a) :
    (a ∈ apps ∧ a.id = x) ∨ acc = some a := by
  induction apps generalizing acc with
  | nil => right; exact h
  | cons b rest ih =>
    rw [List.foldl_cons] at h
    rcases ih _ h with ⟨hmem, hid⟩ | hacc
    · exact Or.inl ⟨List.mem_cons_of_mem _ hmem, hid⟩
    · by_cases hb : b.id = x
      · rw [if_pos hb] at hacc
        injection hacc with e
        subst e
        exact Or.inl ⟨List.mem_cons_self _ _, hb⟩
      · rw [if_neg hb] at hacc
        exact Or.inr hacc

theorem findApp_mem (apps : List Application) (x : String) (a : Application)
    (h : findApp apps x = some a) : a ∈ apps ∧ a.id = x := by
  rcases findApp_aux apps x none a h with h1 | h1
  · exact h1
  · simp at h1

theorem foldl_find_isSome (rest : List Application) (x : String) :
    ∀ acc : Option Application, ((∃ b ∈ rest, b.id = x) ∨ acc.isSome) →
    (rest.foldl (fun acc a => if a.id = x then some a else acc) acc).isSome := by
  induction rest with
  | nil =>
    intro acc h
    rcases h with ⟨b, hb, _⟩ | hacc
    · simp at hb
    · exact hacc
  | cons b rest ih =>
    intro acc h
    rw [List.foldl_cons]
    apply ih
    rcases h with ⟨c, hc, hcx⟩ | hacc
    · rcases List.mem_cons.mp hc with h1 | h1
      · right
        subst h1
        rw [if_pos hcx]
        rfl
      · exact Or.inl ⟨c, h1, hcx⟩
    · right
      by_cases hb : b.id = x
      · rw [if_pos hb]; rfl
      · rw [if_neg hb]; exact hacc

theorem inPlan_of_mem (apps : List Application) (a : Application) (h : a ∈ apps) :
    inPlan apps a.id = true := by
  unfold inPlan findApp
  exact foldl_find_isSome apps a.id none (Or.inl ⟨a, h, rfl⟩)

theorem inPlan_of_findApp (apps : List Application) (x : String) (a : Application)
    (h : findApp apps x = some a) : inPlan apps x = true := by
  unfold inPlan
  rw [h]
  rfl

/-- The number of plan-mentioned ids not yet visited: the DFS fuel measure. -/
def unvisitedCount (apps : List Application) (v : List String) : Nat :=
  ((allPlanIds apps).toFinset \ v.toFinset).card

theorem unvisitedCount_mono (apps : List Application) (v v2 : List String)
    (h : v ⊆ v2) : unvisitedCount apps v2 ≤ unvisitedCount apps v := by
  apply Finset.card_le_card
  intro x hx
  rw [Finset.mem_sdiff] at hx ⊢
  refine ⟨hx.1, fun hc => hx.2 ?_⟩
  rw [List.mem_toFinset] at hc ⊢
  exact h hc

theorem unvisitedCount_lt (apps : List Application) (v : List String) (x : String)
    (hx : x ∈ allPlanIds apps) (hv : x ∉ v) :
    unvisitedCount apps (x :: v) < unvisitedCount apps v := by
  unfold unvisitedCount
  rw [List.toFinset_cons, Finset.sdiff_insert]
  apply Finset.card_erase_lt_of_mem
  rw [Finset.mem_sdiff, List.mem_toFinset, List.mem_toFinset]
  exact ⟨hx, hv⟩

theorem unvisitedCount_lt_fuel (apps : List Application) (v : List String) :
    unvisitedCount apps v < (allPlanIds apps).length + 1 := by
  have h1 : unvisitedCount apps v ≤ ((allPlanIds apps).toFinset).card :=
    Finset.card_le_card (Finset.sdiff_subset)
  have h2 := (allPlanIds apps).toFinset_card_le
  omega

theorem depClosedAux_append (apps : List Application) (o : List Application)
    (b : Application) : ∀ seen,
    DepClosedAux apps seen (o ++ [b]) ↔
      (DepClosedAux apps seen o
        ∧ (∀ d ∈ b.depends_on, inPlan apps d = true → d ∈ seen ++ idsOf o)) := by
  induction o with
  | nil =>
    intro seen
    show ((∀ d ∈ b.depends_on, inPlan apps d = true → d ∈ seen) ∧ True)
      ↔ (True ∧ ∀ d ∈ b.depends_on, inPlan apps d = true → d ∈ seen ++ idsOf [])
    simp [idsOf]
  | cons a rest ih =>
    intro seen
    show ((∀ d ∈ a.depends_on, inPlan apps d = true → d ∈ seen)
        ∧ DepClosedAux apps (seen ++ [a.id]) (rest ++ [b]))
      ↔ (((∀ d ∈ a.depends_on, inPlan apps d = true → d ∈ seen)
        ∧ DepClosedAux apps (seen ++ [a.id]) rest)
        ∧ ∀ d ∈ b.depends_on, inPlan apps d = true → d ∈ seen ++ idsOf (a :: rest))
    rw [ih (seen ++ [a.id])]
    have hsp : seen ++ [a.id] ++ idsOf rest = seen ++ idsOf (a :: rest) := by
      rw [List.append_assoc]
      rfl
    rw [hsp]
    tauto

theorem depClosed_append (apps : List Application) (o : List Application) (b : Application) :
    DepClosed apps (o ++ [b]) ↔
      (DepClosed apps o ∧ (∀ d ∈ b.depends_on, inPlan apps d = true → d ∈ idsOf o)) := by
  unfold DepClosed
  rw [depClosedAux_append apps o b []]
  simp

theorem idsOf_append (l1 l2 : List Application) :
    idsOf (l1 ++ l2) = idsOf l1 ++ idsOf l2 := by
  simp [idsOf]

/-- Preconditions for one `visit` call: the order built so far is visited,
duplicate-free and dependency-closed, and every in-plan visited id not yet in
the order (a gray node, i.e. a DFS ancestor) has rank at least that of the
node being visited. -/
def VisitPre (apps : List Application) (rank : String → Nat) (v : List String)
    (o : List Application) (x : String) : Prop :=
  idsOf o ⊆ v
  ∧ (idsOf o).Nodup
  ∧ DepClosed apps o
  ∧ (inPlan apps x = true → ∀ g ∈ v, inPlan apps g = true →
      g ∈ idsOf o ∨ rank x ≤ rank g)

/-- Postconditions of one `visit` call. -/
def VisitOut (apps : List Application) (v : List String) (o : List Application) (x : String)
    (r : List String × List Application) : Prop :=
  v ⊆ r.1
  ∧ x ∈ r.1
  ∧ (∀ y ∈ r.1, y ∈ v ∨ y ∈ allPlanIds apps)
  ∧ (∃ t, r.2 = o ++ t ∧ ∀ b ∈ t, b.id ∉ v)
  ∧ idsOf r.2 ⊆ r.1
  ∧ (idsOf r.2).Nodup
  ∧ DepClosed apps r.2
  ∧ (∀ y ∈ r.1, inPlan apps y = true → y ∈ idsOf r.2 ∨ y ∈ v)

/-- Invariant carried through the `for dep in app.depends_on` loop of `visit`:
threaded over the dependency list, every postcondition of the single calls is
preserved and every dependency ends up visited. -/
theorem visitFold_spec (apps : List Application) (rank : String → Nat) (fuel : Nat) (R : Nat)
    (ih : ∀ x v o, x ∈ allPlanIds apps → unvisitedCount apps v < fuel →
      VisitPre apps rank v o x → VisitOut apps v o x (visit apps fuel v o x)) :
    ∀ (deps : List String) (v0 : List String) (o0 : List Application),
    (∀ d ∈ deps, d ∈ allPlanIds apps) →
    unvisitedCount apps v0 < fuel →
    (∀ d ∈ deps, inPlan apps d = true → rank d < R) →
    idsOf o0 ⊆ v0 →
    (idsOf o0).Nodup →
    DepClosed apps o0 →
    (∀ g ∈ v0, inPlan apps g = true → g ∈ idsOf o0 ∨ R ≤ rank g) →
    (v0 ⊆ (deps.foldl (fun p d => visit apps fuel p.1 p.2 d) (v0, o0)).1
     ∧ (∀ y ∈ (deps.foldl (fun p d => visit apps fuel p.1 p.2 d) (v0, o0)).1,
         y ∈ v0 ∨ y ∈ allPlanIds apps)
     ∧ (∃ t, (deps.foldl (fun p d => visit apps fuel p.1 p.2 d) (v0, o0)).2 = o0 ++ t
         ∧ ∀ b ∈ t, b.id ∉ v0)
     ∧ idsOf (deps.foldl (fun p d => visit apps fuel p.1 p.2 d) (v0, o0)).2
         ⊆ (deps.foldl (fun p d => visit apps fuel p.1 p.2 d) (v0, o0)).1
     ∧ (idsOf (deps.foldl (fun p d => visit apps fuel p.1 p.2 d) (v0, o0)).2).Nodup
     ∧ DepClosed apps (deps.foldl (fun p d => visit apps fuel p.1 p.2 d) (v0, o0)).2
     ∧ (∀ g ∈ (deps.foldl (fun p d => visit apps fuel p.1 p.2 d) (v0, o0)).1,
         inPlan apps g = true →
         g ∈ idsOf (deps.foldl (fun p d => visit apps fuel p.1 p.2 d) (v0, o0)).2
           ∨ R ≤ rank g)
     ∧ (∀ y ∈ (deps.foldl (fun p d => visit apps fuel p.1 p.2 d) (v0, o0)).1,
         inPlan apps y = true →
         y ∈ idsOf (deps.foldl (fun p d => visit apps fuel p.1 p.2 d) (v0, o0)).2 ∨ y ∈ v0)
     ∧ (∀ d ∈ deps, d ∈ (deps.foldl (fun p d => visit apps fuel p.1 p.2 d) (v0, o0)).1)) := by
  intro deps
  induction deps with
  | nil =>
    intro v0 o0 _ _ _ hids hnd hdc hgray
    exact ⟨List.Subset.refl _, fun y hy => Or.inl hy, ⟨[], by simp, by simp⟩, hids, hnd, hdc,
      hgray, fun y hy _ => Or.inr hy, by simp⟩
  | cons d ds ihd =>
    intro v0 o0 hdeps hcnt hrk hids hnd hdc hgray
    rw [List.foldl_cons]
    have hpre : VisitPre apps rank v0 o0 d := by
      refine ⟨hids, hnd, hdc, ?_⟩
      intro hd g hg hgp
      rcases hgray g hg hgp with h1 | h1
      · exact Or.inl h1
      · right
        have h2 := hrk d (List.mem_cons_self _ _) hd
        omega
    have hout := ih d v0 o0 (hdeps d (List.mem_cons_self _ _)) hcnt hpre
    obtain ⟨hsub1, hdin1, hnew1, ⟨t1, hext1, ht1⟩, hids1, hnd1, hdc1, hM7⟩ := hout
    have hcnt1 : unvisitedCount apps (visit apps fuel v0 o0 d).1 < fuel :=
      lt_of_le_of_lt (unvisitedCount_mono apps v0 _ hsub1) hcnt
    have hsubids1 : idsOf o0 ⊆ idsOf (visit apps fuel v0 o0 d).2 := by
      rw [hext1, idsOf_append]
      exact fun i hi => List.mem_append_left _ hi
    have hgray1 : ∀ g ∈ (visit apps fuel v0 o0 d).1, inPlan apps g = true →
        g ∈ idsOf (visit apps fuel v0 o0 d).2 ∨ R ≤ rank g := by
      intro g hg hgp
      rcases hM7 g hg hgp with h1 | h1
      · exact Or.inl h1
      · rcases hgray g h1 hgp with h2 | h2
        · exact Or.inl (hsubids1 h2)
        · exact Or.inr h2
    have hrec := ihd (visit apps fuel v0 o0 d).1 (visit apps fuel v0 o0 d).2
      (fun d2 hd2 => hdeps d2 (List.mem_cons_of_mem _ hd2)) hcnt1
      (fun d2 hd2 hp => hrk d2 (List.mem_cons_of_mem _ hd2) hp) hids1 hnd1 hdc1 hgray1
    obtain ⟨hsub2, hnew2, ⟨t2, hext2, ht2⟩, hids2, hnd2, hdc2, hgray2, hM72, hmem2⟩ := hrec
    refine ⟨?_, ?_, ?_, hids2, hnd2, hdc2, hgray2, ?_, ?_⟩
    · exact fun y hy => hsub2 (hsub1 hy)
    · intro y hy
      rcases hnew2 y hy with h1 | h1
      · exact hnew1 y h1
      · exact Or.inr h1
    · refine ⟨t1 ++ t2, ?_, ?_⟩
      · rw [hext2, hext1, List.append_assoc]
      · intro b hb
        rcases List.mem_append.mp hb with h1 | h1
        · exact ht1 b h1
        · exact fun hbv => ht2 b h1 (hsub1 hbv)
    · intro y hy hyp
      rcases hM72 y hy hyp with h1 | h1
      · exact Or.inl h1
      · rcases hM7 y h1 hyp with h2 | h2
        · left
          rw [hext2, idsOf_append]
          exact List.mem_append_left _ h2
        · exact Or.inr h2
    · intro d2 hd2
      rcases List.mem_cons.mp hd2 with h1 | h1
      · rw [h1]
        exact hsub2 hdin1
      · exact hmem2 d2 h1

/-- The main invariant of `visit`: with enough fuel and an acyclicity rank,
one call preserves the order invariants, marks its argument visited, appends
exactly the newly visited in-plan nodes, and keeps the order dependency
closed. -/
theorem visit_spec (apps : List Application) (rank : String → Nat) (hrank : RankOK apps rank) :
    ∀ (fuel : Nat) (x : String) (v : List String) (o : List Application),
    x ∈ allPlanIds apps → unvisitedCount apps v < fuel →
    VisitPre apps rank v o x → VisitOut apps v o x (visit apps fuel v o x) := by
  intro fuel
  induction fuel with
  | zero =>
    intro x v o _ hcnt _
    exact absurd hcnt (Nat.not_lt_zero _)
  | succ fuel ih =>
    intro x v o hx hcnt hpre
    obtain ⟨hids, hnd, hdc, hgray⟩ := hpre
    by_cases hxv : x ∈ v
    · have hv : visit apps (fuel + 1) v o x = (v, o) := by
        show (if x ∈ v then (v, o) else _) = (v, o)
        rw [if_pos hxv]
      rw [hv]
      exact ⟨List.Subset.refl _, hxv, fun y hy => Or.inl hy, ⟨[], by simp, by simp⟩, hids, hnd,
        hdc, fun y hy _ => Or.inr hy⟩
    · cases hfa : findApp apps x with
      | none =>
        have hv : visit apps (fuel + 1) v o x = (x :: v, o) := by
          show (if x ∈ v then (v, o) else
            match findApp apps x with
            | none => (x :: v, o)
            | some a =>
              let r := a.depends_on.foldl (fun p d => visit apps fuel p.1 p.2 d) (x :: v, o)
              (r.1, r.2 ++ [a])) = (x :: v, o)
          rw [if_neg hxv, hfa]
        rw [hv]
        refine ⟨fun y hy => List.mem_cons_of_mem _ hy, List.mem_cons_self _ _, ?_,
          ⟨[], by simp, by simp⟩, fun i hi => List.mem_cons_of_mem _ (hids hi), hnd, hdc, ?_⟩
        · intro y hy
          rcases List.mem_cons.mp hy with h1 | h1
          · rw [h1]; exact Or.inr hx
          · exact Or.inl h1
        · intro y hy hyp
          rcases List.mem_cons.mp hy with h1 | h1
          · exfalso
            rw [h1] at hyp
            unfold inPlan at hyp
            rw [hfa] at hyp
            simp at hyp
          · exact Or.inr h1
      | some a =>
        have hamem := findApp_mem apps x a hfa
        have haid : a.id = x := hamem.2
        have hinx : inPlan apps x = true := inPlan_of_findApp apps x a hfa
        have hdeps : ∀ d ∈ a.depends_on, d ∈ allPlanIds apps := by
          intro d hd
          unfold allPlanIds
          exact List.mem_append_right _ (List.mem_flatMap_of_mem hamem.1 hd)
        have hcnt1 : unvisitedCount apps (x :: v) < fuel := by
          have h1 := unvisitedCount_lt apps v x hx hxv
          omega
        have hrk : ∀ d ∈ a.depends_on, inPlan apps d = true → rank d < rank x := by
          intro d hd hp
          have h2 := hrank a hamem.1 d hd hp
          rw [haid] at h2
          exact h2
        have hids1 : idsOf o ⊆ x :: v := fun i hi => List.mem_cons_of_mem _ (hids hi)
        have hgray1 : ∀ g ∈ x :: v, inPlan apps g = true →
            g ∈ idsOf o ∨ rank x ≤ rank g := by
          intro g hg hgp
          rcases List.mem_cons.mp hg with h1 | h1
          · rw [h1]; exact Or.inr (le_refl _)
          · exact hgray hinx g h1 hgp
        have hfold := visitFold_spec apps rank fuel (rank x) ih a.depends_on (x :: v) o
          hdeps hcnt1 hrk hids1 hnd hdc hgray1
        obtain ⟨hsub2, hnew2, ⟨t2, hext2, ht2⟩, hids2, hnd2, hdc2, hgray2, hM72, hdmem⟩ := hfold
        have hv : visit apps (fuel + 1) v o x =
            ((a.depends_on.foldl (fun p d => visit apps fuel p.1 p.2 d) (x :: v, o)).1,
             (a.depends_on.foldl (fun p d => visit apps fuel p.1 p.2 d) (x :: v, o)).2
               ++ [a]) := by
          show (if x ∈ v then (v, o) else
            match findApp apps x with
            | none => (x :: v, o)
            | some a =>
              let r := a.depends_on.foldl (fun p d => visit apps fuel p.1 p.2 d) (x :: v, o)
              (r.1, r.2 ++ [a])) = _
          rw [if_neg hxv, hfa]
        rw [hv]
        have hxr : x ∈ (a.depends_on.foldl (fun p d => visit apps fuel p.1 p.2 d)
            (x :: v, o)).1 := hsub2 (List.mem_cons_self _ _)
        have hdepsin : ∀ d ∈ a.depends_on, inPlan apps d = true →
            d ∈ idsOf (a.depends_on.foldl (fun p d => visit apps fuel p.1 p.2 d)
              (x :: v, o)).2 := by
          intro d hd hp
          rcases hgray2 d (hdmem d hd) hp with h1 | h1
          · exact h1
          · exfalso
            have h2 := hrk d hd hp
            omega
        refine ⟨?_, hxr, ?_, ?_, ?_, ?_, ?_, ?_⟩
        · exact fun y hy => hsub2 (List.mem_cons_of_mem _ hy)
        · intro y hy
          rcases hnew2 y hy with h1 | h1
          · rcases List.mem_cons.mp h1 with h2 | h2
            · rw [h2]; exact Or.inr hx
            · exact Or.inl h2
          · exact Or.inr h1
        · refine ⟨t2 ++ [a], ?_, ?_⟩
          · show (a.depends_on.foldl (fun p d => visit apps fuel p.1 p.2 d) (x :: v, o)).2
                ++ [a] = o ++ (t2 ++ [a])
            rw [hext2, List.append_assoc]
          · intro b hb
            rcases List.mem_append.mp hb with h1 | h1
            · exact fun hbv => ht2 b h1 (List.mem_cons_of_mem _ hbv)
            · simp only [List.mem_singleton] at h1
              rw [h1, haid]
              exact hxv
        · show idsOf ((a.depends_on.foldl (fun p d => visit apps fuel p.1 p.2 d)
              (x :: v, o)).2 ++ [a]) ⊆ _
          rw [idsOf_append]
          intro i hi
          rcases List.mem_append.mp hi with h1 | h1
          · exact hids2 h1
          · simp only [idsOf, List.map_cons, List.map_nil, List.mem_singleton] at h1
            rw [h1, haid]
            exact hxr
        · show (idsOf ((a.depends_on.foldl (fun p d => visit apps fuel p.1 p.2 d)
              (x :: v, o)).2 ++ [a])).Nodup
          rw [idsOf_append]
          rw [List.nodup_append]
          refine ⟨hnd2, by simp [idsOf], ?_⟩
          intro i hi hi2
          simp only [idsOf, List.map_cons, List.map_nil, List.mem_singleton] at hi2
          rw [hi2, haid] at hi
          rw [hext2, idsOf_append] at hi
          rcases List.mem_append.mp hi with h1 | h1
          · exact hxv (hids h1)
          · simp only [idsOf, List.mem_map] at h1
            obtain ⟨b, hb, hbid⟩ := h1
            exact ht2 b hb (by rw [hbid]; exact List.mem_cons_self _ _)
        · show DepClosed apps ((a.depends_on.foldl (fun p d => visit apps fuel p.1 p.2 d)
              (x :: v, o)).2 ++ [a])
          rw [depClosed_append]
          exact ⟨hdc2, hdepsin⟩
        · intro y hy hyp
          rcases hM72 y hy hyp with h1 | h1
          · left
            rw [idsOf_append]
            exact List.mem_append_left _ h1
          · rcases List.mem_cons.mp h1 with h2 | h2
            · left
              rw [idsOf_append]
              apply List.mem_append_right
              simp [idsOf, h2, haid]
            · exact Or.inr h2

/-- Invariant of the top-level `for app in apps: visit(app.id)` loop: the
order stays dependency closed and duplicate free, no in-plan visited id stays
out of the order between top-level calls, and every processed app lands in
the order. -/
theorem resolveFold_spec (apps : List Application) (rank : String → Nat)
    (hrank : RankOK apps rank) :
    ∀ (l : List Application) (v : List String) (o : List Application),
    (∀ a ∈ l, a ∈ apps) →
    idsOf o ⊆ v →
    (idsOf o).Nodup →
    DepClosed apps o →
    (∀ g ∈ v, inPlan apps g = true → g ∈ idsOf o) →
    ((idsOf (l.foldl (fun p a =>
        visit apps ((allPlanIds apps).length + 1) p.1 p.2 a.id) (v, o)).2).Nodup
     ∧ DepClosed apps (l.foldl (fun p a =>
        visit apps ((allPlanIds apps).length + 1) p.1 p.2 a.id) (v, o)).2
     ∧ (∀ a ∈ l, a.id ∈ idsOf (l.foldl (fun p a =>
        visit apps ((allPlanIds apps).length + 1) p.1 p.2 a.id) (v, o)).2)
     ∧ (∃ t, (l.foldl (fun p a =>
        visit apps ((allPlanIds apps).length + 1) p.1 p.2 a.id) (v, o)).2 = o ++ t)) := by
  intro l
  induction l with
  | nil =>
    intro v o _ _ hnd hdc _
    exact ⟨hnd, hdc, by simp, ⟨[], by simp⟩⟩
  | cons a rest ih =>
    intro v o hmem hids hnd hdc hnogray
    rw [List.foldl_cons]
    have hamem : a ∈ apps := hmem a (List.mem_cons_self _ _)
    have hxall : a.id ∈ allPlanIds apps := by
      unfold allPlanIds
      exact List.mem_append_left _ (List.mem_map_of_mem _ hamem)
    have hout := visit_spec apps rank hrank ((allPlanIds apps).length + 1) a.id v o hxall
      (unvisitedCount_lt_fuel apps v)
      ⟨hids, hnd, hdc, fun _ g hg hgp => Or.inl (hnogray g hg hgp)⟩
    obtain ⟨hsub1, hain1, _, ⟨t1, hext1, _⟩, hids1, hnd1, hdc1, hM7⟩ := hout
    have hsubids1 : idsOf o ⊆ idsOf (visit apps ((allPlanIds apps).length + 1) v o a.id).2 := by
      rw [hext1, idsOf_append]
      exact fun i hi => List.mem_append_left _ hi
    have hnogray1 : ∀ g ∈ (visit apps ((allPlanIds apps).length + 1) v o a.id).1,
        inPlan apps g = true →
        g ∈ idsOf (visit apps ((allPlanIds apps).length + 1) v o a.id).2 := by
      intro g hg hgp
      rcases hM7 g hg hgp with h1 | h1
      · exact h1
      · exact hsubids1 (hnogray g h1 hgp)
    have hrec := ih (visit apps ((allPlanIds apps).length + 1) v o a.id).1
      (visit apps ((allPlanIds apps).length + 1) v o a.id).2
      (fun b hb => hmem b (List.mem_cons_of_mem _ hb)) hids1 hnd1 hdc1 hnogray1
    obtain ⟨hndr, hdcr, hallr, ⟨t2, hext2⟩⟩ := hrec
    refine ⟨hndr, hdcr, ?_, ?_⟩
    · intro b hb
      rcases List.mem_cons.mp hb with h1 | h1
      · rw [h1]
        have hain : a.id ∈ idsOf (visit apps ((allPlanIds apps).length + 1) v o a.id).2 :=
          hnogray1 a.id hain1 (inPlan_of_mem apps a hamem)
        rw [hext2, idsOf_append]
        exact List.mem_append_left _ hain
      · exact hallr b h1
    · refine ⟨t1 ++ t2, ?_⟩
      rw [hext2, hext1, List.append_assoc]

/-- C1 (amended): `_resolve_deploy_order` never raises — there is no cycle
detection.  For every plan whose in-plan `depends_on` graph is acyclic
(witnessed by a rank certificate), the returned order lists each app exactly
once and every in-plan dependency precedes its dependents (post-order DFS).
For a cyclic plan no `invalid-dependency` error occurs either: the order
still contains every app and the deploy proceeds to create containers — see
the counterexample. -/
theorem C1_resolve_deploy_order (apps : List Application) (rank : String → Nat)
    (hrank : RankOK apps rank) :
    DepClosed apps (resolveDeployOrder apps)
    ∧ (idsOf (resolveDeployOrder apps)).Nodup
    ∧ ∀ a ∈ apps, a.id ∈ idsOf (resolveDeployOrder apps) := by
  have h := resolveFold_spec apps rank hrank apps [] []
    (fun a ha => ha) (by simp [idsOf]) (by simp [idsOf]) trivial (by simp)
  exact ⟨h.2.1, h.1, h.2.2.1⟩

/-- App `p-a`, depending on `p-b`. -/
def exAppA : Application :=
  { id := "p-a", project_id := "p", name := "a", source := .image, depends_on := ["p-b"] }

/-- App `p-b`, depending on `p-a` — together with `exAppA` a 2-cycle. -/
def exAppB : Application :=
  { id := "p-b", project_id := "p", name := "b", source := .image, depends_on := ["p-a"] }

/-- C1 counterexample: on the 2-app cycle `p-a → p-b → p-a`,
`_resolve_deploy_order` raises nothing and returns the full order
`[p-b, p-a]`; `deploy_from_config` then iterates this order calling
`deploy` for each app, so containers are created — there is no
`invalid-dependency` rejection anywhere in the function. -/
theorem C1_counterexample :
    resolveDeployOrder [exAppA, exAppB] = [exAppB, exAppA]
    ∧ "p-b" ∈ exAppA.depends_on ∧ "p-a" ∈ exAppB.depends_on := by
  exact ⟨rfl, by decide, by decide⟩

/-- App `p-c` with no dependencies. -/
def exAppC : Application :=
  { id := "p-c", project_id := "p", name := "c", source := .image }

/-- App `p-d`, depending on `p-c`: an acyclic 2-app plan. -/
def exAppD : Application :=
  { id := "p-d", project_id := "p", name := "d", source := .image, depends_on := ["p-c"] }

/-- Witness for C1 on the acyclic plan `p-d → p-c` with an explicit rank
certificate. -/
theorem C1_resolve_deploy_order_witness :
    "p-c" ∈ idsOf (resolveDeployOrder [exAppC, exAppD])
    ∧ "p-d" ∈ idsOf (resolveDeployOrder [exAppC, exAppD])
    ∧ DepClosed [exAppC, exAppD] (resolveDeployOrder [exAppC, exAppD]) := by
  have h := C1_resolve_deploy_order [exAppC, exAppD]
    (fun s => if s = "p-d" then 1 else 0) (by unfold RankOK; decide)
  exact ⟨h.2.2 exAppC (by decide), h.2.2 exAppD (by decide), h.1⟩

end Velox
